import Mathlib

/-! hideproc: a verification development.

Shallow embedding of `src/main.c` (the `hideproc` kernel module): the registry of hidden
process identifiers (`hidden_proc`), the enumeration hook (`hook_find_ge_pid`), the ftrace
interceptor (`hook_install`, `hook_remove`, `hook_ftrace_thunk`), the character-device
read and write handlers, and module initialisation.

Conventions of the embedding.

* The intrusive list `hidden_proc` is a `List Int`: a node carries nothing but its `id`.
* A `pid_t` / `int` is an `Int` in the range `INT_MIN .. INT_MAX`; conversions and `int`
  arithmetic of the source are written with `wrap_int32`.
* A `struct pid *` is an `Option Int`: `none` is `NULL`, `some nr` is a pid whose
  `numbers->nr` is `nr`.
* A C string or byte buffer is a `List Nat` of byte values; the terminating NUL is `NUL`.
* Services of the kernel that the module only calls (symbol lookup, ftrace, the real
  `find_ge_pid`, device registration) enter as parameters giving their outcome.
-/

namespace Hideproc

/-! ## Machine integers -/

/-- Smallest value of a 32-bit signed `int`. -/
def INT_MIN : Int := -2147483648

/-- Largest value of a 32-bit signed `int`. -/
def INT_MAX : Int := 2147483647

/-- Reduction of an integer to a 32-bit signed `int` (`pid_t`): the value modulo `2^32`,
read as two's complement. -/
def wrap_int32 (v : Int) : Int :=
  (v + 2147483648) % 4294967296 - 2147483648

/-! ## The registry `hidden_proc` (lines 77-129) -/

/-- Source `enum RETURN_CODE { SUCCESS }`. -/
def SUCCESS : Int := 0

/-- Source `is_hidden_proc`: walk the list and return `true` at the first node whose `id`
equals `pid`, `false` when the walk reaches the head again. -/
def is_hidden_proc : List Int → Int → Bool
  | [], _ => false
  | id :: rest, pid => if id = pid then true else is_hidden_proc rest pid

/-- Source `hide_process`: allocate a node, set its `id`, link it at the tail, return
`SUCCESS`. The result is the return value and the new registry. -/
def hide_process (pid : Int) (hidden_proc : List Int) : Int × List Int :=
  (SUCCESS, hidden_proc ++ [pid])

/-- The loop of `unhide_process`: `list_for_each_entry_safe` visits every node once, in list
order, and unlinks the node when its `id` equals `pid`; the walk goes on after a match. -/
def unhide_loop (pid : Int) : List Int → List Int
  | [] => []
  | id :: rest => if id = pid then unhide_loop pid rest else id :: unhide_loop pid rest

/-- Source `unhide_process`: run the removal loop, return `SUCCESS`. -/
def unhide_process (pid : Int) (hidden_proc : List Int) : Int × List Int :=
  (SUCCESS, unhide_loop pid hidden_proc)

/-! ## The enumeration hook (lines 84-103) -/

/-- The kernel's `find_ge_pid` over a finite set `U` of live identifiers (given as a list):
the least element of `U` that is at least `nr`, or `NULL` when there is none. -/
def real_find_ge_pid : List Int → Int → Option Int
  | [], _ => none
  | u :: us, nr =>
    match real_find_ge_pid us nr with
    | none => if nr ≤ u then some u else none
    | some m => if nr ≤ u ∧ u < m then some u else some m

/-- The `while` loop of `hook_find_ge_pid`, for an arbitrary underlying operation `real`.
`pid` is the current candidate and `calls` the number of calls made to `real` so far.
One unit of fuel is spent per evaluation of the loop condition; `none` means the fuel ran
out before the loop exited. The increment `pid->numbers->nr + 1` is `int` arithmetic. -/
def hook_find_ge_pid_loop (real : Int → Option Int) (hidden_proc : List Int) :
    Nat → Option Int → Nat → Option (Option Int × Nat)
  | 0, _, _ => none
  | _ + 1, none, calls => some (none, calls)
  | fuel + 1, some nr, calls =>
    if is_hidden_proc hidden_proc nr then
      hook_find_ge_pid_loop real hidden_proc fuel (real (wrap_int32 (nr + 1))) (calls + 1)
    else some (some nr, calls)

/-- Source `hook_find_ge_pid`: one call to the underlying operation, then the skipping loop.
The result is the returned pid together with the number of calls made to `real`. -/
def hook_find_ge_pid (real : Int → Option Int) (hidden_proc : List Int) (fuel : Nat)
    (nr : Int) : Option (Option Int × Nat) :=
  hook_find_ge_pid_loop real hidden_proc fuel (real nr) 1

/-! ## Bytes and C strings -/

/-- The bytes of a string literal (every character of the literals used here is ASCII). -/
def bytes (s : String) : List Nat :=
  s.toList.map Char.toNat

/-- The terminating byte of a C string. -/
def NUL : Nat := 0

/-- The C string that starts at the beginning of a memory region: the bytes up to, and not
including, the first NUL (`strlen` many bytes). -/
def c_string : List Nat → List Nat
  | [] => []
  | c :: mem => if c = NUL then [] else c :: c_string mem

/-- One call `strsep(&start, delim)` on a non-NULL `start` with a one-character delimiter
set: the token returned and the new value of `start` (`none` is `NULL`: no delimiter was
found). The argument is the C string `start` points to. -/
def strsep (delim : Nat) : List Nat → List Nat × Option (List Nat)
  | [] => ([], none)
  | c :: s =>
    if c = delim then ([], some s)
    else ((c :: (strsep delim s).1), (strsep delim s).2)

/-- The successive values of `found` in `while ((found = strsep(&start, delim)) != NULL)`:
the fields of the C string between delimiters, empty fields included, at least one. -/
def strsep_tokens (delim : Nat) : List Nat → List (List Nat)
  | [] => [[]]
  | c :: s =>
    if c = delim then [] :: strsep_tokens delim s
    else
      match strsep_tokens delim s with
      | [] => [[c]]
      | tok :: toks => (c :: tok) :: toks

/-! ## `kstrtol` (the kernel's `lib/kstrtox.c`, for base 10 and a 64-bit `long`) -/

/-- Error number "no such file or directory". -/
def ENOENT : Int := 2

/-- Error number "try again". -/
def EAGAIN : Int := 11

/-- Error number "invalid argument". -/
def EINVAL : Int := 22

/-- Error number "result out of range". -/
def ERANGE : Int := 34

/-- Largest `unsigned long long`. -/
def ULLONG_MAX : Nat := 18446744073709551615

/-- The loop of `_parse_integer` for base 10. `res` is the 64-bit accumulator, `rv` the
number of digits consumed, `ov` the `KSTRTOX_OVERFLOW` flag. A byte that is not a decimal
digit stops the loop (the letters `a`-`f` have a value not below the base). The overflow
test is made only when one of the top four bits of `res` is set, i.e. `2^60 <= res`. -/
def _parse_integer : List Nat → Nat → Nat → Bool → Nat × Nat × Bool
  | [], res, rv, ov => (res, rv, ov)
  | c :: s, res, rv, ov =>
    if 48 ≤ c ∧ c ≤ 57 then
      let val := c - 48
      let ov1 := ov ||
        (decide (1152921504606846976 ≤ res) && decide (res > (ULLONG_MAX - val) / 10))
      _parse_integer s ((res * 10 + val) % 18446744073709551616) (rv + 1) ov1
    else (res, rv, ov)

/-- Source `_kstrtoull` for base 10: digits, then an optional single newline, then the end
of the string. -/
def _kstrtoull (s : List Nat) : Except Int Nat :=
  match _parse_integer s 0 0 false with
  | (res, rv, ov) =>
    if ov then .error (-ERANGE)
    else if rv = 0 then .error (-EINVAL)
    else
      match s.drop rv with
      | [] => .ok res
      | c :: t =>
        if c = 10 then
          match t with
          | [] => .ok res
          | _ :: _ => .error (-EINVAL)
        else .error (-EINVAL)

/-- Source `kstrtoull`: an optional leading `+`. -/
def kstrtoull (s : List Nat) : Except Int Nat :=
  match s with
  | [] => _kstrtoull s
  | c :: t => if c = 43 then _kstrtoull t else _kstrtoull s

/-- Source `kstrtoll`: a leading `-` negates; the magnitude must fit a signed 64-bit value
(`(long long)-tmp > 0` holds exactly when `tmp > 2^63`, `(long long)tmp < 0` exactly when
`tmp >= 2^63`). -/
def kstrtoll (s : List Nat) : Except Int Int :=
  match s with
  | [] =>
    match kstrtoull s with
    | .error rv => .error rv
    | .ok tmp => if tmp ≥ 9223372036854775808 then .error (-ERANGE) else .ok (tmp : Int)
  | c :: t =>
    if c = 45 then
      match _kstrtoull t with
      | .error rv => .error rv
      | .ok tmp => if tmp > 9223372036854775808 then .error (-ERANGE) else .ok (-(tmp : Int))
    else
      match kstrtoull s with
      | .error rv => .error rv
      | .ok tmp => if tmp ≥ 9223372036854775808 then .error (-ERANGE) else .ok (tmp : Int)

/-- Source `kstrtol(s, 10, &res)` where `long` and `long long` coincide. -/
def kstrtol (s : List Nat) : Except Int Int :=
  kstrtoll s

/-! ## `device_write` (lines 158-215) -/

/-- Source `list_cmp`: `pa->id > pb->id` as an `int`. -/
def list_cmp (a b : Int) : Int :=
  if a > b then 1 else 0

/-- Insertion step of the model of `list_sort`: `a` goes in front of the first `b` with
`cmp(a, b) <= 0`. -/
def list_sort_insert (cmp : Int → Int → Int) (a : Int) : List Int → List Int
  | [] => [a]
  | b :: rest => if cmp a b ≤ 0 then a :: b :: rest else b :: list_sort_insert cmp a rest

/-- The kernel's `list_sort` (`lib/list_sort.c`), a stable merge sort that keeps `a` before
a later `b` exactly when `cmp(a, b) <= 0`. It is modelled by the stable insertion sort that
takes the same decision on every pair it compares. -/
def list_sort (cmp : Int → Int → Int) : List Int → List Int
  | [] => []
  | a :: rest => list_sort_insert cmp a (list_sort cmp rest)

/-- The scan of lines 206-211: `proc` walks the list with `tmp_proc` its successor, read
before the body runs; `proc` is unlinked when `tmp_proc` is a node (not the head) and has
the same `id`. -/
def dedup_scan : List Int → List Int
  | [] => []
  | [proc] => [proc]
  | proc :: tmp_proc :: rest =>
    if tmp_proc = proc then dedup_scan (tmp_proc :: rest)
    else proc :: dedup_scan (tmp_proc :: rest)

/-- Source `enum INPUT_MODE { _ADD, _DEL }`. -/
inductive INPUT_MODE where
  | _ADD
  | _DEL
  deriving DecidableEq

/-- The body of the token loop (lines 192-201) for one token `found`: when `kstrtol`
returns 0 the parsed `long` is passed to `hide_process` or `unhide_process`, whose
parameter is a `pid_t`; otherwise nothing is done. -/
def apply_token (input_mode : INPUT_MODE) (hidden_proc : List Int) (found : List Nat) :
    List Int :=
  match kstrtol found with
  | .ok pid =>
    match input_mode with
    | INPUT_MODE._ADD => (hide_process (wrap_int32 pid) hidden_proc).2
    | INPUT_MODE._DEL => (unhide_process (wrap_int32 pid) hidden_proc).2
  | .error _ => hidden_proc

/-- Lines 191-211: the token loop over the C string at `start`, then the sort and the
scan. -/
def process_tokens (input_mode : INPUT_MODE) (start : List Nat) (hidden_proc : List Int) :
    List Int :=
  dedup_scan (list_sort list_cmp
    ((strsep_tokens 32 (c_string start)).foldl (apply_token input_mode) hidden_proc))

/-- Source `device_write`. `buffer` is the user's request (`len` is its length),
`hidden_proc` the registry before the call; the result is the return value and the registry
after the call. `message` is the zero-filled copy of `len + 1` bytes. Scanning starts at
`message + sizeof(add_message)`, byte index 4; `beyond` is the content of the memory that
follows the copy, which is what the scan reads when index 4 lies past the copy's last byte
(the NUL bytes that `strsep` stores over delimiters found there are not represented).
`return len` converts `size_t` to `ssize_t`; the VFS layer bounds `len` by `MAX_RW_COUNT`,
so the value is unchanged. -/
def device_write (beyond : List Nat) (buffer : List Nat) (hidden_proc : List Int) :
    Int × List Int :=
  let len := buffer.length
  if len < 3 ∧ len < 3 then (-EAGAIN, hidden_proc)
  else
    let message := buffer ++ [NUL]
    if message.take 3 = bytes "add" then
      (len, process_tokens INPUT_MODE._ADD ((message ++ beyond).drop 4) hidden_proc)
    else if message.take 3 = bytes "del" then
      (len, process_tokens INPUT_MODE._DEL ((message ++ beyond).drop 4) hidden_proc)
    else (-EAGAIN, hidden_proc)

/-! ## `device_read` (lines 131-156) -/

/-- Source `#define OUTPUT_BUFFER_FORMAT "pid: %d\n"`. -/
def OUTPUT_BUFFER_FORMAT : String := "pid: %d\n"

/-- Source `#define MAX_MESSAGE_SIZE (sizeof(OUTPUT_BUFFER_FORMAT) + 4)`; `sizeof` counts
the terminating NUL of the literal. -/
def MAX_MESSAGE_SIZE : Nat :=
  ((bytes OUTPUT_BUFFER_FORMAT).length + 1) + 4

/-- Decimal digits of `n`, most significant first, put in front of `acc`; at least one
digit is produced. `fuel` bounds the number of digits. -/
def put_dec : Nat → Nat → List Nat → List Nat
  | 0, _, acc => acc
  | fuel + 1, n, acc =>
    if n / 10 = 0 then (48 + n % 10) :: acc
    else put_dec fuel (n / 10) ((48 + n % 10) :: acc)

/-- The conversion `%d` of an `int`: a minus sign for a negative value, then the decimal
digits of the magnitude. -/
def format_d (v : Int) : List Nat :=
  if v < 0 then 45 :: put_dec (v.natAbs + 1) v.natAbs []
  else put_dec (v.natAbs + 1) v.natAbs []

/-- The string `sprintf(message, OUTPUT_BUFFER_FORMAT, id)` produces (without its
terminating NUL). -/
def sprintf_pid (id : Int) : List Nat :=
  bytes "pid: " ++ format_d id ++ [10]

/-- The loop of `device_read`: for every node, in list order, the record is formatted
into `message`, copied to `buffer + *offset`, and `*offset` advances by its `strlen`. `out`
is what has been copied to the user buffer so far. `sprintf` stores the record and its
terminating NUL in `message`, an array of `MAX_MESSAGE_SIZE` bytes on the stack; when they
do not fit, `sprintf` writes past the end of the array, the behaviour of the function is
undefined from there on, and the result is `none`. -/
def device_read_loop : List Int → List Nat → Int → Option (List Nat × Int)
  | [], out, offset => some (out, offset)
  | id :: rest, out, offset =>
    if (sprintf_pid id).length + 1 ≤ MAX_MESSAGE_SIZE then
      device_read_loop rest (out ++ sprintf_pid id) (offset + (sprintf_pid id).length)
    else none

/-- Source `device_read`: the bytes copied to the user buffer, the new value of `*offset`
and the return value; `none` when a record overruns `message`. A non-zero `*offset` ends
the listing at once. The parameter `len` of the source is not used by it. -/
def device_read (hidden_proc : List Int) (offset : Int) : Option (List Nat × Int × Int) :=
  if offset ≠ 0 then some ([], offset, 0)
  else
    match device_read_loop hidden_proc [] offset with
    | some (out, offset1) => some (out, offset1, offset1)
    | none => none

/-! ## The interceptor (lines 14-75) -/

/-- The flags `hook_install` requests for the ftrace operation. -/
inductive ftrace_ops_flag where
  | FTRACE_OPS_FL_SAVE_REGS
  | FTRACE_OPS_FL_RECURSION_SAFE
  | FTRACE_OPS_FL_IPMODIFY
  deriving DecidableEq

/-- Source `struct ftrace_hook`, without its `name`: `func` is the address of the
replacement, `orig` the content of the slot `hook->orig` points to, `address` the resolved
address; `ops_func_set` tells whether `ops.func` is `hook_ftrace_thunk`, `ops_flags` is
`ops.flags`. -/
structure ftrace_hook where
  func : Nat
  orig : Nat
  address : Nat
  ops_func_set : Bool
  ops_flags : List ftrace_ops_flag
  deriving DecidableEq

/-- A call made to the ftrace subsystem: `ftrace_set_filter_ip(&hook->ops, ip, remove, 0)`,
`register_ftrace_function(&hook->ops)`, `unregister_ftrace_function(&hook->ops)`. -/
inductive ftrace_call where
  | ftrace_set_filter_ip (ip : Nat) (remove : Int)
  | register_ftrace_function
  | unregister_ftrace_function
  deriving DecidableEq

/-- What the module has in force at the ftrace subsystem for the hook's operation: the
address of an accepted filter request that it has not since asked to remove, if any, and
whether a registration of the callback was accepted. -/
structure ftrace_state where
  filter : Option Nat
  registered : Bool
  deriving DecidableEq

/-- Source `hook_resolve_addr`. `lookup` is the value `kallsyms_lookup_name(hook->name)`
returns (0 when the symbol is unknown). -/
def hook_resolve_addr (lookup : Nat) (hook : ftrace_hook) : Int × ftrace_hook :=
  if lookup = 0 then (-ENOENT, { hook with address := lookup })
  else (0, { hook with address := lookup, orig := lookup })

/-- Source `hook_install`. `lookup` is the outcome of symbol resolution, `e_filter` the
value returned by `ftrace_set_filter_ip(.., 0, 0)` and `e_register` the value returned by
`register_ftrace_function`. The result is the return value, the hook descriptor, the calls
made to ftrace in order, and what is in force at ftrace afterwards, starting from `st`. A
request that returns 0 is in force and a request that returns an error is not; the filter
stops being in force with the removal request of line 57, whose return value the source
discards. -/
def hook_install (lookup : Nat) (e_filter e_register : Int) (hook : ftrace_hook)
    (st : ftrace_state) : Int × ftrace_hook × List ftrace_call × ftrace_state :=
  match hook_resolve_addr lookup hook with
  | (err, hook1) =>
    if err ≠ 0 then (err, hook1, [], st)
    else
      let hook2 := { hook1 with
        ops_func_set := true,
        ops_flags := [ftrace_ops_flag.FTRACE_OPS_FL_SAVE_REGS,
          ftrace_ops_flag.FTRACE_OPS_FL_RECURSION_SAFE,
          ftrace_ops_flag.FTRACE_OPS_FL_IPMODIFY] }
      if e_filter ≠ 0 then
        (e_filter, hook2, [ftrace_call.ftrace_set_filter_ip hook2.address 0], st)
      else
        let st1 := { st with filter := some hook2.address }
        if e_register ≠ 0 then
          (e_register, hook2,
            [ftrace_call.ftrace_set_filter_ip hook2.address 0,
              ftrace_call.register_ftrace_function,
              ftrace_call.ftrace_set_filter_ip hook2.address 1],
            { st1 with filter := none })
        else
          (0, hook2,
            [ftrace_call.ftrace_set_filter_ip hook2.address 0,
              ftrace_call.register_ftrace_function],
            { st1 with registered := true })

/-- Source `struct pt_regs`: the instruction pointer and the other saved registers. -/
structure pt_regs where
  ip : Nat
  others : List Nat
  deriving DecidableEq

/-- Source `hook_ftrace_thunk`. `within_module` is `within_module(., THIS_MODULE)`, the
test whether an address lies in this module's code region. -/
def hook_ftrace_thunk (within_module : Nat → Bool) (hook : ftrace_hook)
    (_ip parent_ip : Nat) (regs : pt_regs) : pt_regs :=
  if !within_module parent_ip then { regs with ip := hook.func } else regs

/-! ## Module initialisation (lines 87-111 and 232-264) -/

/-- The module's global state that initialisation touches: the function pointer
`real_find_ge_pid`, the descriptor `hook`, and the ftrace subsystem. -/
structure module_state where
  real_find_ge_pid : Nat
  hook : ftrace_hook
  ftrace : ftrace_state
  deriving DecidableEq

/-- Source `init_hook`, a `void` function: it looks `find_ge_pid` up, fills the descriptor
and calls `hook_install`, whose return value it does not use. `hook_find_ge_pid_addr` is
the address of the replacement function. -/
def init_hook (hook_find_ge_pid_addr lookup : Nat) (e_filter e_register : Int)
    (m : module_state) : module_state :=
  let hook0 := { m.hook with func := hook_find_ge_pid_addr, orig := lookup }
  match hook_install lookup e_filter e_register hook0 m.ftrace with
  | (_, hook1, _, st) => { real_find_ge_pid := hook1.orig, hook := hook1, ftrace := st }

/-- A teardown call made by `_hideproc_init` on one of its failing paths. -/
inductive cleanup_call where
  | unregister_chrdev_region
  | cdev_del
  | class_destroy
  deriving DecidableEq

/-- Source `_hideproc_init`. `alloc_ret` is the value of `alloc_chrdev_region`,
`cdev_add_ret` the value of `cdev_add`, `class_err` and `device_err` tell whether
`class_create` and `device_create` returned an error pointer; the remaining parameters are
those of `init_hook`. The result is the return value, the teardown calls made, and the
module state. -/
def _hideproc_init (alloc_ret cdev_add_ret : Int) (class_err device_err : Bool)
    (hook_find_ge_pid_addr lookup : Nat) (e_filter e_register : Int) (m : module_state) :
    Int × List cleanup_call × module_state :=
  if alloc_ret < 0 then (-1, [], m)
  else if cdev_add_ret = -1 then (-1, [cleanup_call.unregister_chrdev_region], m)
  else if class_err then
    (-1, [cleanup_call.cdev_del, cleanup_call.unregister_chrdev_region], m)
  else if device_err then
    (-1, [cleanup_call.class_destroy, cleanup_call.cdev_del,
      cleanup_call.unregister_chrdev_region], m)
  else (0, [], init_hook hook_find_ge_pid_addr lookup e_filter e_register m)

/-! ## Teardown of the hook (lines 63-75) -/

/-- The loop of `hook_remove`: `list_for_each_entry_safe` visits every node once and the
body unlinks and frees it. -/
def hook_remove_drain : List Int → List Int
  | [] => []
  | _ :: rest => hook_remove_drain rest

/-- A line that `hook_remove` prints: `unregister_ftrace_function() failed: %d` or
`ftrace_set_filter_ip() failed: %d`, with the error printed. -/
inductive printk_line where
  | unregister_ftrace_function_failed (err : Int)
  | ftrace_set_filter_ip_failed (err : Int)
  deriving DecidableEq

/-- Source `hook_remove`. `e_unregister` is the value `unregister_ftrace_function` returns
and `e_filter` the value `ftrace_set_filter_ip(.., 1, 0)` returns. The result is the
registry after the call, the calls made to ftrace in order, each with the content of the
registry at the moment of the call, and the lines printed. -/
def hook_remove (e_unregister e_filter : Int) (hook : ftrace_hook) (hidden_proc : List Int) :
    List Int × List (ftrace_call × List Int) × List printk_line :=
  let hidden_proc1 := hook_remove_drain hidden_proc
  let log1 :=
    if e_unregister ≠ 0 then [printk_line.unregister_ftrace_function_failed e_unregister]
    else []
  let log2 :=
    if e_filter ≠ 0 then [printk_line.ftrace_set_filter_ip_failed e_filter]
    else []
  (hidden_proc1,
    [(ftrace_call.unregister_ftrace_function, hidden_proc1),
      (ftrace_call.ftrace_set_filter_ip hook.address 1, hidden_proc1)],
    log1 ++ log2)

/-! ## Vocabulary of the statements -/

/-- The identifier a token stands for in a write request: the `long` that `kstrtol` parses,
converted to `pid_t`; `none` when `kstrtol` does not return 0. -/
def token_pid (found : List Nat) : Option Int :=
  match kstrtol found with
  | .ok pid => some (wrap_int32 pid)
  | .error _ => none

/-- The text of a token sequence: the tokens separated by single spaces. -/
def join_tokens : List (List Nat) → List Nat
  | [] => []
  | [tok] => tok
  | tok :: toks => tok ++ 32 :: join_tokens toks

/-- One operation on the registry: `hide_process(id)` or `unhide_process(id)`. -/
inductive registry_op where
  | hide (id : Int)
  | unhide (id : Int)
  deriving DecidableEq

/-- The registry after one operation. -/
def apply_op (hidden_proc : List Int) : registry_op → List Int
  | registry_op.hide id => (hide_process id hidden_proc).2
  | registry_op.unhide id => (unhide_process id hidden_proc).2

/-- The registry after a sequence of operations, first to last. -/
def run_ops (ops : List registry_op) (hidden_proc : List Int) : List Int :=
  ops.foldl apply_op hidden_proc

/-- The identifiers a sequence of operations hides. -/
def added_ids : List registry_op → List Int
  | [] => []
  | registry_op.hide id :: ops => id :: added_ids ops
  | registry_op.unhide _ :: ops => added_ids ops

/-- The identifiers a sequence of operations unhides. -/
def removed_ids : List registry_op → List Int
  | [] => []
  | registry_op.hide _ :: ops => removed_ids ops
  | registry_op.unhide id :: ops => id :: removed_ids ops

/-- Whether the second operation hides the identifier that the first one unhides. -/
def hides_again : registry_op → registry_op → Bool
  | registry_op.unhide a, registry_op.hide b => decide (a = b)
  | _, _ => false

/-- Whether the first operation of the sequence that names `x` hides it (`false` when no
operation names `x`). -/
def first_op_hides : List registry_op → Int → Bool
  | [], _ => false
  | registry_op.hide id :: ops, x => if id = x then true else first_op_hides ops x
  | registry_op.unhide id :: ops, x => if id = x then false else first_op_hides ops x

/-- Whether the last operation of the sequence that names `x` hides it. -/
def last_op_hides (ops : List registry_op) (x : Int) : Bool :=
  first_op_hides ops.reverse x

/-- The number a string of decimal digits denotes, continuing from the value `res` of the
digits read before it. -/
def dec_value (digits : List Nat) (res : Nat) : Nat :=
  digits.foldl (fun r c => r * 10 + (c - 48)) res

/-- The mode tag of a write request. -/
def mode_tag : INPUT_MODE → List Nat
  | INPUT_MODE._ADD => bytes "add"
  | INPUT_MODE._DEL => bytes "del"

/-- The registry operation a write request of the given mode applies to an identifier. -/
def mode_op : INPUT_MODE → Int → registry_op
  | INPUT_MODE._ADD, id => registry_op.hide id
  | INPUT_MODE._DEL, id => registry_op.unhide id

/-- A batch: a mode and the identifiers listed after the mode tag. -/
abbrev batch := INPUT_MODE × List Int

/-- The text of a batch request: the mode tag, a space, and the identifiers in decimal,
separated by single spaces. -/
def batch_request (b : batch) : List Nat :=
  mode_tag b.1 ++ 32 :: join_tokens (b.2.map format_d)

/-- The registry operations a batch asks for, in order. -/
def batch_ops (b : batch) : List registry_op :=
  b.2.map (mode_op b.1)

/-- The registry operations a sequence of batches asks for, in order. -/
def batches_ops : List batch → List registry_op
  | [] => []
  | b :: bs => batch_ops b ++ batches_ops bs

/-- The registry after a sequence of write requests, first to last, each handled by
`device_write`. -/
def run_requests (beyond : List Nat) (requests : List (List Nat)) (hidden_proc : List Int) :
    List Int :=
  requests.foldl (fun reg request => (device_write beyond request reg).2) hidden_proc

/-- Whether `x` lies before the pid an enumeration step returned; every identifier lies
before `NULL`. -/
def before_result : Option Int → Int → Bool
  | none, _ => true
  | some v, x => decide (x < v)

/-- The distinct hidden identifiers that belong to `U`, are at least `n` and lie before the
returned pid `r`. -/
def skipped_ids (U H : List Int) (n : Int) (r : Option Int) : Finset Int :=
  (U.toFinset ∩ H.toFinset).filter (fun x => n ≤ x ∧ before_result r x = true)

/-- The records `device_read` emits for a registry, one per entry, in list order. -/
def records (hidden_proc : List Int) : List (List Nat) :=
  hidden_proc.map sprintf_pid

end Hideproc

namespace Hideproc

/-! ## Lemmas on the registry -/

theorem is_hidden_proc_iff (H : List Int) (pid : Int) :
    is_hidden_proc H pid = true ↔ pid ∈ H := by
  induction H with
  | nil => simp [is_hidden_proc]
  | cons id rest ih =>
    by_cases h : id = pid
    · simp [is_hidden_proc, h]
    · have h' : ¬ pid = id := fun e => h e.symm
      simp [is_hidden_proc, h, h', ih]

theorem unhide_loop_eq_filter (pid : Int) (L : List Int) :
    unhide_loop pid L = L.filter (fun id => decide (id ≠ pid)) := by
  induction L with
  | nil => rfl
  | cons id rest ih =>
    by_cases h : id = pid
    · simp [unhide_loop, h, ih]
    · simp [unhide_loop, h, ih]

/-! ## Lemmas on the enumeration hook -/

theorem real_find_ge_pid_none (U : List Int) (nr : Int) :
    real_find_ge_pid U nr = none ↔ ∀ u ∈ U, u < nr := by
  induction U with
  | nil => simp [real_find_ge_pid]
  | cons u us ih =>
    simp only [real_find_ge_pid]
    cases h : real_find_ge_pid us nr with
    | none =>
      have hus := ih.mp h
      by_cases hu : nr ≤ u
      · simp only [hu, if_true]
        constructor
        · intro h0; cases h0
        · intro hall
          have := hall u (List.mem_cons_self _ _)
          omega
      · simp only [hu, if_false, true_iff]
        intro x hx
        rcases List.mem_cons.mp hx with rfl | hx
        · omega
        · exact hus x hx
    | some m =>
      have hne : ¬ ∀ u ∈ us, u < nr := fun hall => by
        rw [ih.mpr hall] at h; cases h
      have hne' : ¬ ∀ x ∈ u :: us, x < nr := fun hall =>
        hne (fun x hx => hall x (List.mem_cons_of_mem _ hx))
      by_cases hu : nr ≤ u ∧ u < m
      · simp only [hu, and_self, if_true]
        constructor
        · intro h0; cases h0
        · intro hall; exact absurd hall hne'
      · simp only [hu, if_false]
        constructor
        · intro h0; cases h0
        · intro hall; exact absurd hall hne'

theorem real_find_ge_pid_some (U : List Int) (nr p : Int) :
    real_find_ge_pid U nr = some p ↔
      p ∈ U ∧ nr ≤ p ∧ ∀ u ∈ U, nr ≤ u → p ≤ u := by
  induction U generalizing p with
  | nil => simp [real_find_ge_pid]
  | cons u us ih =>
    simp only [real_find_ge_pid]
    cases h : real_find_ge_pid us nr with
    | none =>
      have hus := (real_find_ge_pid_none us nr).mp h
      by_cases hu : nr ≤ u
      · simp only [hu, if_true, Option.some.injEq]
        constructor
        · rintro rfl
          refine ⟨List.mem_cons_self _ _, hu, ?_⟩
          intro x hx hnx
          rcases List.mem_cons.mp hx with rfl | hx
          · exact le_refl _
          · have := hus x hx; omega
        · rintro ⟨hp, hnp, -⟩
          rcases List.mem_cons.mp hp with rfl | hp
          · rfl
          · have := hus p hp; omega
      · simp only [hu, if_false]
        constructor
        · intro h0; cases h0
        · rintro ⟨hp, hnp, -⟩
          rcases List.mem_cons.mp hp with rfl | hp
          · exact absurd hnp hu
          · have := hus p hp; omega
    | some m =>
      obtain ⟨hm, hnm, hmin⟩ := (ih m).mp h
      by_cases hu : nr ≤ u ∧ u < m
      · simp only [hu, and_self, if_true, Option.some.injEq]
        constructor
        · rintro rfl
          refine ⟨List.mem_cons_self _ _, hu.1, ?_⟩
          intro x hx hnx
          rcases List.mem_cons.mp hx with rfl | hx
          · exact le_refl _
          · have := hmin x hx hnx; omega
        · rintro ⟨hp, hnp, hpmin⟩
          have h1 := hpmin u (List.mem_cons_self _ _) hu.1
          rcases List.mem_cons.mp hp with rfl | hp
          · rfl
          · have := hmin p hp hnp; omega
      · simp only [hu, if_false, Option.some.injEq]
        constructor
        · rintro rfl
          refine ⟨List.mem_cons_of_mem _ hm, hnm, ?_⟩
          intro x hx hnx
          rcases List.mem_cons.mp hx with rfl | hx
          · by_contra hlt
            exact hu ⟨hnx, by omega⟩
          · exact hmin x hx hnx
        · rintro ⟨hp, hnp, hpmin⟩
          have h1 := hpmin m (List.mem_cons_of_mem _ hm) hnm
          rcases List.mem_cons.mp hp with rfl | hp
          · have h2 : ¬ p < m := fun hlt => hu ⟨hnp, hlt⟩
            omega
          · have := hmin p hp hnp; omega

theorem countP_lt_of_imp (U : List Int) (P Q : Int → Bool)
    (hPQ : ∀ x, P x = true → Q x = true) (a : Int) (ha : a ∈ U) (hQ : Q a = true) (hP : P a = false) :
    U.countP P < U.countP Q := by
  induction U with
  | nil => cases ha
  | cons x xs ih =>
    rcases List.mem_cons.mp ha with rfl | hxs
    · have hle : xs.countP P ≤ xs.countP Q :=
        List.countP_mono_left (fun y _ hy => hPQ y hy)
      simp only [List.countP_cons, hQ, hP]
      simp
      omega
    · have := ih hxs
      simp only [List.countP_cons]
      by_cases hpx : P x = true
      · simp [hpx, hPQ x hpx]; omega
      · by_cases hqx : Q x = true
        · simp [hpx, hqx]; omega
        · simp [hpx, hqx]; omega

theorem wrap_int32_of_range (v : Int) (h1 : INT_MIN ≤ v) (h2 : v ≤ INT_MAX) :
    wrap_int32 v = v := by
  unfold wrap_int32
  unfold INT_MIN at h1
  unfold INT_MAX at h2
  omega

/-- The skipping loop started on the candidate `real_find_ge_pid U m`: with one unit of fuel
more than the number of elements of `U` at or above `m`, it returns the least element of
`U` at or above `m` that is not hidden. -/
theorem hook_find_ge_pid_loop_spec (U H : List Int)
    (hU : ∀ u ∈ U, INT_MIN ≤ u ∧ u < INT_MAX) :
    ∀ (fuel : Nat) (m : Int) (calls : Nat),
      U.countP (fun u => decide (m ≤ u)) + 1 ≤ fuel →
      ∃ r c, hook_find_ge_pid_loop (real_find_ge_pid U) H fuel (real_find_ge_pid U m) calls
          = some (r, c) ∧
        (∀ p, r = some p ↔
          (p ∈ U ∧ m ≤ p ∧ p ∉ H) ∧ ∀ x, x ∈ U ∧ m ≤ x ∧ x ∉ H → p ≤ x) ∧
        (r = none ↔ ∀ x ∈ U, m ≤ x → x ∈ H) := by
  intro fuel
  induction fuel with
  | zero => intro m calls h; omega
  | succ fuel ih =>
    intro m calls hfuel
    cases hreal : real_find_ge_pid U m with
    | none =>
      have hall := (real_find_ge_pid_none U m).mp hreal
      refine ⟨none, calls, by simp [hook_find_ge_pid_loop], ?_, ?_⟩
      · intro p
        constructor
        · intro h0; cases h0
        · rintro ⟨⟨hp, hmp, -⟩, -⟩
          have := hall p hp; omega
      · simp only [true_iff]
        intro x hx hmx
        have := hall x hx; omega
    | some q =>
      obtain ⟨hq, hmq, hqmin⟩ := (real_find_ge_pid_some U m q).mp hreal
      by_cases hhid : is_hidden_proc H q = true
      · have hqH : q ∈ H := (is_hidden_proc_iff H q).mp hhid
        have hwrap : wrap_int32 (q + 1) = q + 1 := by
          have := hU q hq
          apply wrap_int32_of_range
          · unfold INT_MIN at *; omega
          · unfold INT_MAX at *; omega
        have hlt : U.countP (fun u => decide (q + 1 ≤ u)) <
            U.countP (fun u => decide (m ≤ u)) := by
          apply countP_lt_of_imp U _ _ _ q hq
          · simpa using hmq
          · simp
          · intro x hx
            simp only [decide_eq_true_eq] at hx ⊢
            omega
        obtain ⟨r, c, hrun, hsome, hnone⟩ := ih (q + 1) (calls + 1) (by omega)
        refine ⟨r, c, ?_, ?_, ?_⟩
        · simp only [hook_find_ge_pid_loop, hhid, if_true, hwrap]
          exact hrun
        · intro p
          rw [hsome p]
          constructor
          · rintro ⟨⟨hp, hqp, hpH⟩, hpmin⟩
            refine ⟨⟨hp, by omega, hpH⟩, ?_⟩
            rintro x ⟨hx, hmx, hxH⟩
            apply hpmin x
            refine ⟨hx, ?_, hxH⟩
            have h1 := hqmin x hx hmx
            rcases lt_or_eq_of_le h1 with h2 | h2
            · omega
            · subst h2; exact absurd hqH hxH
          · rintro ⟨⟨hp, hmp, hpH⟩, hpmin⟩
            have h1 := hqmin p hp hmp
            have hne : q ≠ p := fun e => hpH (e ▸ hqH)
            refine ⟨⟨hp, by omega, hpH⟩, ?_⟩
            rintro x ⟨hx, hqx, hxH⟩
            exact hpmin x ⟨hx, by omega, hxH⟩
        · rw [hnone]
          constructor
          · intro hall x hx hmx
            have h1 := hqmin x hx hmx
            rcases lt_or_eq_of_le h1 with h2 | h2
            · exact hall x hx (by omega)
            · subst h2; exact hqH
          · intro hall x hx hqx
            exact hall x hx (by omega)
      · have hqH : q ∉ H := fun hin => hhid ((is_hidden_proc_iff H q).mpr hin)
        refine ⟨some q, calls, by simp [hook_find_ge_pid_loop, hhid], ?_, ?_⟩
        · intro p
          simp only [Option.some.injEq]
          constructor
          · rintro rfl
            exact ⟨⟨hq, hmq, hqH⟩, fun x hx => hqmin x hx.1 hx.2.1⟩
          · rintro ⟨⟨hp, hmp, hpH⟩, hpmin⟩
            have h1 := hqmin p hp hmp
            have h2 := hpmin q ⟨hq, hmq, hqH⟩
            omega
        · constructor
          · intro h0; cases h0
          · intro hall; exact absurd (hall q hq hmq) hqH

/-! ## Lemmas on the sort-and-scan pass -/

theorem list_cmp_le_zero_iff (a b : Int) : list_cmp a b ≤ 0 ↔ a ≤ b := by
  unfold list_cmp
  by_cases h : a > b
  · simp only [h, if_true]; omega
  · simp only [h, if_false]; omega

theorem list_sort_insert_perm (cmp : Int → Int → Int) (a : Int) (l : List Int) :
    (list_sort_insert cmp a l).Perm (a :: l) := by
  induction l with
  | nil => exact List.Perm.refl _
  | cons b rest ih =>
    simp only [list_sort_insert]
    by_cases h : cmp a b ≤ 0
    · simp only [h, if_true]; exact List.Perm.refl _
    · simp only [h, if_false]
      exact (List.Perm.cons b ih).trans (List.Perm.swap a b rest)

theorem list_sort_perm (cmp : Int → Int → Int) (l : List Int) :
    (list_sort cmp l).Perm l := by
  induction l with
  | nil => exact List.Perm.refl _
  | cons a rest ih =>
    simp only [list_sort]
    exact (list_sort_insert_perm cmp a _).trans (List.Perm.cons a ih)

theorem list_sort_insert_sorted (a : Int) (l : List Int) (hl : l.Sorted (· ≤ ·)) :
    (list_sort_insert list_cmp a l).Sorted (· ≤ ·) := by
  induction l with
  | nil => simp [list_sort_insert]
  | cons b rest ih =>
    simp only [list_sort_insert]
    by_cases h : list_cmp a b ≤ 0
    · simp only [h, if_true]
      have hab : a ≤ b := (list_cmp_le_zero_iff a b).mp h
      refine List.sorted_cons.mpr ⟨?_, hl⟩
      intro x hx
      rcases List.mem_cons.mp hx with rfl | hx
      · exact hab
      · exact le_trans hab (List.rel_of_sorted_cons hl x hx)
    · simp only [h, if_false]
      have hba : b ≤ a := by
        have := (list_cmp_le_zero_iff a b).not.mp h
        omega
      refine List.sorted_cons.mpr ⟨?_, ih hl.of_cons⟩
      intro x hx
      have hx' := (list_sort_insert_perm list_cmp a rest).subset hx
      rcases List.mem_cons.mp hx' with rfl | hx'
      · exact hba
      · exact List.rel_of_sorted_cons hl x hx'

theorem list_sort_sorted (l : List Int) : (list_sort list_cmp l).Sorted (· ≤ ·) := by
  induction l with
  | nil => simp [list_sort]
  | cons a rest ih => exact list_sort_insert_sorted a _ ih

theorem mem_dedup_scan (l : List Int) (v : Int) : v ∈ dedup_scan l ↔ v ∈ l := by
  induction l with
  | nil => simp [dedup_scan]
  | cons a rest ih =>
    cases rest with
    | nil => simp [dedup_scan]
    | cons b rest =>
      simp only [dedup_scan]
      by_cases h : b = a
      · simp only [h, if_true]
        rw [← h, ih]
        simp
      · simp only [h, if_false, List.mem_cons]
        rw [ih]
        simp

theorem dedup_scan_sorted (l : List Int) (hl : l.Sorted (· ≤ ·)) :
    (dedup_scan l).Sorted (· < ·) := by
  induction l with
  | nil => simp [dedup_scan]
  | cons a rest ih =>
    cases rest with
    | nil => simp [dedup_scan]
    | cons b rest =>
      simp only [dedup_scan]
      by_cases h : b = a
      · simp only [h, if_true]
        rw [← h]
        exact ih hl.of_cons
      · simp only [h, if_false]
        have hab : a ≤ b := List.rel_of_sorted_cons hl b (List.mem_cons_self _ _)
        refine List.sorted_cons.mpr ⟨?_, ih hl.of_cons⟩
        intro x hx
        have hx' := (mem_dedup_scan (b :: rest) x).mp hx
        have hbx : b ≤ x := by
          rcases List.mem_cons.mp hx' with rfl | hx'
          · exact le_refl _
          · exact List.rel_of_sorted_cons hl.of_cons x hx'
        have hne : a ≠ b := fun e => h e.symm
        omega

/-- The sort-and-scan pass leaves the strictly ascending list of the distinct values. -/
theorem dedup_pass_eq_sort (L : List Int) :
    dedup_scan (list_sort list_cmp L) = L.toFinset.sort (· ≤ ·) := by
  have hs : (dedup_scan (list_sort list_cmp L)).Sorted (· < ·) :=
    dedup_scan_sorted _ (list_sort_sorted L)
  have hmem : ∀ v, v ∈ dedup_scan (list_sort list_cmp L) ↔ v ∈ L := fun v => by
    rw [mem_dedup_scan]
    exact (list_sort_perm list_cmp L).mem_iff
  have hfin : (dedup_scan (list_sort list_cmp L)).toFinset = L.toFinset := by
    ext v; simp [hmem]
  rw [← hfin]
  exact ((List.toFinset_sort (· ≤ ·) hs.nodup).mpr hs.le_of_lt).symm

theorem dedup_pass_strict_count (L : List Int) (v : Int) (hv : v ∈ L) :
    (dedup_scan (list_sort list_cmp L)).count v = 1 := by
  have hs : (dedup_scan (list_sort list_cmp L)).Sorted (· < ·) :=
    dedup_scan_sorted _ (list_sort_sorted L)
  apply List.count_eq_one_of_mem hs.nodup
  rw [mem_dedup_scan]
  exact (list_sort_perm list_cmp L).mem_iff.mpr hv

theorem is_hidden_proc_dedup_pass (L : List Int) (v : Int) :
    is_hidden_proc (dedup_scan (list_sort list_cmp L)) v = is_hidden_proc L v := by
  have h : v ∈ dedup_scan (list_sort list_cmp L) ↔ v ∈ L := by
    rw [mem_dedup_scan]
    exact (list_sort_perm list_cmp L).mem_iff
  by_cases hv : v ∈ L
  · rw [(is_hidden_proc_iff L v).mpr hv, (is_hidden_proc_iff _ v).mpr (h.mpr hv)]
  · have h1 : is_hidden_proc L v = false := by
      cases hh : is_hidden_proc L v
      · rfl
      · exact absurd ((is_hidden_proc_iff L v).mp hh) hv
    have h2 : is_hidden_proc (dedup_scan (list_sort list_cmp L)) v = false := by
      cases hh : is_hidden_proc (dedup_scan (list_sort list_cmp L)) v
      · rfl
      · exact absurd (h.mp ((is_hidden_proc_iff _ v).mp hh)) hv
    rw [h1, h2]

/-! ## Lemmas on the write handler -/

theorem bytes_add : bytes "add" = [97, 100, 100] := by decide

theorem bytes_del : bytes "del" = [100, 101, 108] := by decide

theorem c_string_append_nul (body rest : List Nat) (h : NUL ∉ body) :
    c_string (body ++ NUL :: rest) = body := by
  induction body with
  | nil => simp [c_string]
  | cons c body ih =>
    have hc : c ≠ NUL := fun e => h (e ▸ List.mem_cons_self _ _)
    have hb : NUL ∉ body := fun hin => h (List.mem_cons_of_mem _ hin)
    simp [c_string, hc, ih hb]

theorem strsep_tokens_ne_nil (delim : Nat) (s : List Nat) : strsep_tokens delim s ≠ [] := by
  induction s with
  | nil => simp [strsep_tokens]
  | cons c s ih =>
    simp only [strsep_tokens]
    by_cases h : c = delim
    · simp [h]
    · simp only [h, if_false]
      cases hs : strsep_tokens delim s with
      | nil => simp
      | cons tok toks => simp

/-- The token list is what repeated calls of `strsep` return: the first token, then the
tokens of the new `start` unless it is `NULL`. -/
theorem strsep_tokens_unfold (delim : Nat) (s : List Nat) :
    strsep_tokens delim s =
      (strsep delim s).1 ::
        (match (strsep delim s).2 with
          | none => []
          | some next => strsep_tokens delim next) := by
  induction s with
  | nil => simp [strsep_tokens, strsep]
  | cons c s ih =>
    by_cases h : c = delim
    · simp [strsep_tokens, strsep, h]
    · simp only [strsep_tokens, strsep, h, if_false]
      rw [ih]

theorem strsep_tokens_no_delim (delim : Nat) (tok : List Nat) (h : delim ∉ tok) :
    strsep_tokens delim tok = [tok] := by
  induction tok with
  | nil => simp [strsep_tokens]
  | cons c tok ih =>
    have hc : c ≠ delim := fun e => h (e ▸ List.mem_cons_self _ _)
    have ht : delim ∉ tok := fun hin => h (List.mem_cons_of_mem _ hin)
    simp [strsep_tokens, hc, ih ht]

theorem strsep_tokens_append (delim : Nat) (tok rest : List Nat) (h : delim ∉ tok) :
    strsep_tokens delim (tok ++ delim :: rest) = tok :: strsep_tokens delim rest := by
  induction tok with
  | nil => simp [strsep_tokens]
  | cons c tok ih =>
    have hc : c ≠ delim := fun e => h (e ▸ List.mem_cons_self _ _)
    have ht : delim ∉ tok := fun hin => h (List.mem_cons_of_mem _ hin)
    simp [strsep_tokens, hc, ih ht]

theorem strsep_tokens_join (toks : List (List Nat)) (hne : toks ≠ [])
    (h : ∀ tok ∈ toks, 32 ∉ tok) : strsep_tokens 32 (join_tokens toks) = toks := by
  induction toks with
  | nil => exact absurd rfl hne
  | cons tok toks ih =>
    cases toks with
    | nil =>
      simp only [join_tokens]
      exact strsep_tokens_no_delim 32 tok (h tok (List.mem_cons_self _ _))
    | cons tok2 toks =>
      simp only [join_tokens]
      rw [strsep_tokens_append 32 tok _ (h tok (List.mem_cons_self _ _))]
      rw [ih (by simp) (fun t ht => h t (List.mem_cons_of_mem _ ht))]

theorem NUL_not_mem_join_tokens (toks : List (List Nat)) (h : ∀ tok ∈ toks, NUL ∉ tok) :
    NUL ∉ join_tokens toks := by
  induction toks with
  | nil => simp [join_tokens]
  | cons tok toks ih =>
    cases toks with
    | nil => simpa [join_tokens] using h tok (List.mem_cons_self _ _)
    | cons tok2 toks =>
      simp only [join_tokens, List.mem_append, List.mem_cons, not_or]
      refine ⟨h tok (List.mem_cons_self _ _), by decide, ?_⟩
      exact ih (fun t ht => h t (List.mem_cons_of_mem _ ht))

theorem apply_token_eq (input_mode : INPUT_MODE) (reg : List Int) (found : List Nat) :
    apply_token input_mode reg found =
      match token_pid found with
      | some id => apply_op reg (mode_op input_mode id)
      | none => reg := by
  unfold apply_token token_pid
  cases kstrtol found with
  | error e => rfl
  | ok pid => cases input_mode <;> rfl

theorem foldl_apply_token (input_mode : INPUT_MODE) (toks : List (List Nat)) (reg : List Int) :
    toks.foldl (apply_token input_mode) reg =
      run_ops ((toks.filterMap token_pid).map (mode_op input_mode)) reg := by
  induction toks generalizing reg with
  | nil => rfl
  | cons tok toks ih =>
    simp only [List.foldl_cons, List.filterMap_cons]
    rw [ih, apply_token_eq]
    cases token_pid tok with
    | none => rfl
    | some id => rfl

theorem token_pid_nil : token_pid [] = none := by decide

theorem run_ops_hide (ids : List Int) (reg : List Int) :
    run_ops (ids.map registry_op.hide) reg = reg ++ ids := by
  induction ids generalizing reg with
  | nil => simp [run_ops]
  | cons id ids ih =>
    have := ih (reg ++ [id])
    simp only [run_ops] at this ⊢
    simp only [List.map_cons, List.foldl_cons, apply_op, hide_process]
    rw [this]
    simp

/-- A batch request: a mode tag, any byte at index 3, then tokens separated by single
spaces. It is accepted, and its effect is the effect of the operations of the tokens that
parse, followed by the sort-and-scan pass. -/
theorem device_write_batch (input_mode : INPUT_MODE) (sep : Nat) (beyond : List Nat)
    (toks : List (List Nat)) (reg : List Int)
    (h : ∀ tok ∈ toks, 32 ∉ tok ∧ NUL ∉ tok) :
    device_write beyond (mode_tag input_mode ++ sep :: join_tokens toks) reg =
      (((mode_tag input_mode ++ sep :: join_tokens toks).length : Int),
        dedup_scan (list_sort list_cmp
          (run_ops ((toks.filterMap token_pid).map (mode_op input_mode)) reg))) := by
  have hnul : NUL ∉ join_tokens toks := NUL_not_mem_join_tokens toks (fun t ht => (h t ht).2)
  have hfold : (strsep_tokens 32 (join_tokens toks)).foldl (apply_token input_mode) reg =
      run_ops ((toks.filterMap token_pid).map (mode_op input_mode)) reg := by
    by_cases hne : toks = []
    · subst hne
      simp [join_tokens, strsep_tokens, apply_token_eq, token_pid_nil, run_ops]
    · rw [strsep_tokens_join toks hne (fun t ht => (h t ht).1), foldl_apply_token]
  cases input_mode with
  | _ADD =>
    simp only [device_write, mode_tag, bytes_add, process_tokens]
    simp only [List.cons_append, List.nil_append, List.length_cons, List.take_succ_cons,
      List.take_zero, List.drop_succ_cons, List.drop_zero, List.append_assoc]
    rw [if_neg (by omega)]
    simp only [if_true, List.singleton_append, c_string_append_nul _ _ hnul, hfold]
  | _DEL =>
    simp only [device_write, mode_tag, bytes_add, bytes_del, process_tokens]
    simp only [List.cons_append, List.nil_append, List.length_cons, List.take_succ_cons,
      List.take_zero, List.drop_succ_cons, List.drop_zero, List.append_assoc]
    rw [if_neg (by omega)]
    rw [if_neg (by decide)]
    simp only [if_true, List.singleton_append, c_string_append_nul _ _ hnul, hfold]

/-! ## Printing and parsing an identifier -/

theorem put_dec_append (fuel n : Nat) (acc : List Nat) :
    put_dec fuel n acc = put_dec fuel n [] ++ acc := by
  induction fuel generalizing n acc with
  | zero => simp [put_dec]
  | succ fuel ih =>
    simp only [put_dec]
    by_cases h : n / 10 = 0
    · simp [h]
    · simp only [h, if_false]
      rw [ih (n / 10) ((48 + n % 10) :: acc), ih (n / 10) [48 + n % 10]]
      simp

theorem put_dec_digits (fuel n : Nat) : ∀ c ∈ put_dec fuel n [], 48 ≤ c ∧ c ≤ 57 := by
  induction fuel generalizing n with
  | zero => simp [put_dec]
  | succ fuel ih =>
    intro c hc
    simp only [put_dec] at hc
    by_cases h : n / 10 = 0
    · simp only [h, if_true, List.mem_singleton] at hc
      omega
    · simp only [h, if_false] at hc
      rw [put_dec_append] at hc
      rcases List.mem_append.mp hc with hc | hc
      · exact ih _ c hc
      · simp only [List.mem_singleton] at hc
        omega

theorem put_dec_ne_nil (fuel n : Nat) : put_dec (fuel + 1) n [] ≠ [] := by
  simp only [put_dec]
  by_cases h : n / 10 = 0
  · simp [h]
  · simp only [h, if_false]
    rw [put_dec_append]
    simp

theorem dec_value_append_singleton (ds : List Nat) (c res : Nat) :
    dec_value (ds ++ [c]) res = dec_value ds res * 10 + (c - 48) := by
  simp [dec_value, List.foldl_append]

theorem le_dec_value (ds : List Nat) (res : Nat) : res ≤ dec_value ds res := by
  induction ds generalizing res with
  | nil => simp [dec_value]
  | cons c ds ih =>
    have := ih (res * 10 + (c - 48))
    simp only [dec_value, List.foldl_cons] at this ⊢
    omega

theorem put_dec_value (fuel n : Nat) (h : n < fuel) : dec_value (put_dec fuel n []) 0 = n := by
  induction fuel generalizing n with
  | zero => omega
  | succ fuel ih =>
    simp only [put_dec]
    by_cases h0 : n / 10 = 0
    · simp only [h0, if_true, dec_value, List.foldl_cons, List.foldl_nil]
      omega
    · simp only [h0, if_false]
      rw [put_dec_append, dec_value_append_singleton, ih (n / 10) (by omega)]
      omega

theorem parse_integer_digits (ds rest : List Nat) (res rv : Nat)
    (hd : ∀ c ∈ ds, 48 ≤ c ∧ c ≤ 57) (hb : dec_value ds res < 1152921504606846976) :
    _parse_integer (ds ++ rest) res rv false =
      _parse_integer rest (dec_value ds res) (rv + ds.length) false := by
  induction ds generalizing res rv with
  | nil => simp [dec_value]
  | cons c ds ih =>
    have hc := hd c (List.mem_cons_self _ _)
    have hstep : dec_value (c :: ds) res = dec_value ds (res * 10 + (c - 48)) := rfl
    rw [hstep] at hb
    have hle := le_dec_value ds (res * 10 + (c - 48))
    have hres : ¬ 1152921504606846976 ≤ res := by omega
    have hmod : (res * 10 + (c - 48)) % 18446744073709551616 = res * 10 + (c - 48) :=
      Nat.mod_eq_of_lt (by omega)
    simp only [List.cons_append, _parse_integer, hc, and_self, if_true, hres, decide_False,
      Bool.false_and, Bool.or_false, hmod, List.append_eq]
    rw [ih _ _ (fun x hx => hd x (List.mem_cons_of_mem _ hx)) hb, hstep]
    simp only [List.length_cons]
    congr 1
    omega

theorem kstrtoull_digits (ds : List Nat) (hne : ds ≠ [])
    (hd : ∀ c ∈ ds, 48 ≤ c ∧ c ≤ 57) (hb : dec_value ds 0 < 1152921504606846976) :
    _kstrtoull ds = .ok (dec_value ds 0) := by
  have hp := parse_integer_digits ds [] 0 0 hd hb
  simp only [List.append_nil, _parse_integer, Nat.zero_add] at hp
  have hlen : ds.length ≠ 0 := fun e => hne (List.length_eq_zero.mp e)
  simp [_kstrtoull, hp, hlen]

theorem kstrtol_format_d (v : Int) (h1 : INT_MIN ≤ v) (h2 : v ≤ INT_MAX) :
    kstrtol (format_d v) = .ok v := by
  unfold INT_MIN at h1
  unfold INT_MAX at h2
  have hval : dec_value (put_dec (v.natAbs + 1) v.natAbs []) 0 = v.natAbs :=
    put_dec_value _ _ (by omega)
  have hdig := put_dec_digits (v.natAbs + 1) v.natAbs
  have hne := put_dec_ne_nil v.natAbs v.natAbs
  have hk : _kstrtoull (put_dec (v.natAbs + 1) v.natAbs []) = .ok v.natAbs := by
    rw [kstrtoull_digits _ hne hdig (by rw [hval]; omega), hval]
  unfold kstrtol format_d
  by_cases hv : v < 0
  · simp only [hv, if_true, kstrtoll, hk]
    have : ¬ v.natAbs > 9223372036854775808 := by omega
    simp only [this, if_false]
    congr 1
    omega
  · simp only [hv, if_false]
    cases hds : put_dec (v.natAbs + 1) v.natAbs [] with
    | nil => exact absurd hds hne
    | cons c t =>
      have hc := hdig c (by rw [hds]; exact List.mem_cons_self _ _)
      have h45 : c ≠ 45 := by omega
      have h43 : c ≠ 43 := by omega
      rw [hds] at hk
      simp only [kstrtoll, h45, if_false, kstrtoull, h43, hk]
      have : ¬ v.natAbs ≥ 9223372036854775808 := by omega
      simp only [this, if_false]
      congr 1
      omega

theorem token_pid_format_d (v : Int) (h1 : INT_MIN ≤ v) (h2 : v ≤ INT_MAX) :
    token_pid (format_d v) = some v := by
  simp [token_pid, kstrtol_format_d v h1 h2, wrap_int32_of_range v h1 h2]

theorem format_d_clean (v : Int) : 32 ∉ format_d v ∧ NUL ∉ format_d v := by
  have hdig := put_dec_digits (v.natAbs + 1) v.natAbs
  unfold format_d NUL
  by_cases hv : v < 0
  · simp only [hv, if_true, List.mem_cons, not_or]
    refine ⟨⟨by decide, fun h => ?_⟩, ⟨by decide, fun h => ?_⟩⟩
    · have := hdig 32 h; omega
    · have := hdig 0 h; omega
  · simp only [hv, if_false]
    refine ⟨fun h => ?_, fun h => ?_⟩
    · have := hdig 32 h; omega
    · have := hdig 0 h; omega

/-! ## Sequences of registry operations -/

theorem mem_apply_op (reg : List Int) (op : registry_op) (x : Int) :
    x ∈ apply_op reg op ↔
      match op with
      | registry_op.hide id => x ∈ reg ∨ x = id
      | registry_op.unhide id => x ∈ reg ∧ x ≠ id := by
  cases op with
  | hide id => simp [apply_op, hide_process]
  | unhide id => simp [apply_op, unhide_process, unhide_loop_eq_filter]

theorem run_ops_cons (op : registry_op) (ops : List registry_op) (reg : List Int) :
    run_ops (op :: ops) reg = run_ops ops (apply_op reg op) := rfl

theorem run_ops_append (ops1 ops2 : List registry_op) (reg : List Int) :
    run_ops (ops1 ++ ops2) reg = run_ops ops2 (run_ops ops1 reg) := by
  simp [run_ops, List.foldl_append]

theorem mem_run_ops_congr (ops : List registry_op) (reg1 reg2 : List Int)
    (h : ∀ x, x ∈ reg1 ↔ x ∈ reg2) :
    ∀ x, x ∈ run_ops ops reg1 ↔ x ∈ run_ops ops reg2 := by
  induction ops generalizing reg1 reg2 with
  | nil => exact h
  | cons op ops ih =>
    intro x
    rw [run_ops_cons, run_ops_cons]
    apply ih
    intro y
    rw [mem_apply_op, mem_apply_op]
    cases op with
    | hide id => simp only [h y]
    | unhide id => simp only [h y]

theorem mem_added_ids (ops : List registry_op) (x : Int) :
    x ∈ added_ids ops ↔ registry_op.hide x ∈ ops := by
  induction ops with
  | nil => simp [added_ids]
  | cons op ops ih =>
    cases op with
    | hide id => simp [added_ids, ih]
    | unhide id => simp [added_ids, ih]

/-- Membership after a sequence of operations in which no identifier is hidden after it
was unhidden. -/
theorem mem_run_ops (ops : List registry_op) (init : List Int) (x : Int)
    (h : ops.Pairwise (fun a b => hides_again a b = false)) :
    x ∈ run_ops ops init ↔ (x ∈ init ∨ x ∈ added_ids ops) ∧ x ∉ removed_ids ops := by
  induction ops generalizing init with
  | nil => simp [run_ops, added_ids, removed_ids]
  | cons op ops ih =>
    obtain ⟨hhead, htail⟩ := List.pairwise_cons.mp h
    rw [run_ops_cons, ih _ htail, mem_apply_op]
    cases op with
    | hide id =>
      simp only [added_ids, removed_ids, List.mem_cons]
      constructor
      · rintro ⟨(h1 | h1) | h1, h2⟩
        · exact ⟨Or.inl h1, h2⟩
        · exact ⟨Or.inr (Or.inl h1), h2⟩
        · exact ⟨Or.inr (Or.inr h1), h2⟩
      · rintro ⟨h1 | h1 | h1, h2⟩
        · exact ⟨Or.inl (Or.inl h1), h2⟩
        · exact ⟨Or.inl (Or.inr h1), h2⟩
        · exact ⟨Or.inr h1, h2⟩
    | unhide id =>
      have hid : id ∉ added_ids ops := by
        intro hin
        have := hhead _ ((mem_added_ids ops id).mp hin)
        simp [hides_again] at this
      simp only [added_ids, removed_ids, List.mem_cons, not_or]
      constructor
      · rintro ⟨h1 | h1, h2⟩
        · exact ⟨Or.inl h1.1, h1.2, h2⟩
        · exact ⟨Or.inr h1, fun e => hid (e ▸ h1), h2⟩
      · rintro ⟨h1 | h1, h2, h3⟩
        · exact ⟨Or.inl ⟨h1, h2⟩, h3⟩
        · exact ⟨Or.inr h1, h3⟩

theorem added_ids_append (ops1 ops2 : List registry_op) :
    added_ids (ops1 ++ ops2) = added_ids ops1 ++ added_ids ops2 := by
  induction ops1 with
  | nil => rfl
  | cons op ops ih =>
    cases op with
    | hide id => simp [added_ids, ih]
    | unhide id => simp [added_ids, ih]

theorem removed_ids_append (ops1 ops2 : List registry_op) :
    removed_ids (ops1 ++ ops2) = removed_ids ops1 ++ removed_ids ops2 := by
  induction ops1 with
  | nil => rfl
  | cons op ops ih =>
    cases op with
    | hide id => simp [removed_ids, ih]
    | unhide id => simp [removed_ids, ih]

/-- Membership after any sequence of operations: an identifier is in the registry exactly
when the last operation that names it hides it, or it belongs to
(initial ∪ added) − removed. -/
theorem mem_run_ops_exact (ops : List registry_op) (init : List Int) (x : Int) :
    x ∈ run_ops ops init ↔
      last_op_hides ops x = true ∨
        ((x ∈ init ∨ x ∈ added_ids ops) ∧ x ∉ removed_ids ops) := by
  induction ops using List.reverseRecOn with
  | nil => simp [run_ops, last_op_hides, first_op_hides, added_ids, removed_ids]
  | append_singleton ops op ih =>
    have hrun : run_ops (ops ++ [op]) init = apply_op (run_ops ops init) op := by
      rw [run_ops_append]; rfl
    rw [hrun, mem_apply_op, added_ids_append, removed_ids_append]
    unfold last_op_hides at ih ⊢
    rw [List.reverse_append]
    cases op with
    | hide id =>
      by_cases hid : id = x
      · subst hid
        simp [first_op_hides]
      · have hid' : ¬ x = id := fun e => hid e.symm
        simp only [List.reverse_singleton, List.singleton_append, first_op_hides, hid,
          if_false, added_ids, removed_ids, List.mem_append, List.mem_singleton, hid',
          or_false, List.append_nil]
        rw [ih]
        rfl
    | unhide id =>
      by_cases hid : id = x
      · subst hid
        simp [first_op_hides, removed_ids]
      · have hid' : ¬ x = id := fun e => hid e.symm
        simp only [List.reverse_singleton, List.singleton_append, first_op_hides, hid,
          if_false, added_ids, removed_ids, List.mem_append, List.mem_singleton, hid',
          or_false, List.append_nil, ne_eq, not_false_eq_true, and_true]
        rw [ih]
        rfl

theorem mem_dedup_pass (L : List Int) (v : Int) :
    v ∈ dedup_scan (list_sort list_cmp L) ↔ v ∈ L := by
  rw [mem_dedup_scan]
  exact (list_sort_perm list_cmp L).mem_iff

theorem filterMap_token_pid_format_d (ids : List Int)
    (h : ∀ id ∈ ids, INT_MIN ≤ id ∧ id ≤ INT_MAX) :
    (ids.map format_d).filterMap token_pid = ids := by
  induction ids with
  | nil => rfl
  | cons id ids ih =>
    have hid := h id (List.mem_cons_self _ _)
    simp only [List.map_cons, List.filterMap_cons, token_pid_format_d id hid.1 hid.2]
    rw [ih (fun x hx => h x (List.mem_cons_of_mem _ hx))]

theorem device_write_batch_request (beyond : List Nat) (b : batch) (reg : List Int)
    (h : ∀ id ∈ b.2, INT_MIN ≤ id ∧ id ≤ INT_MAX) :
    (device_write beyond (batch_request b) reg).2 =
      dedup_scan (list_sort list_cmp (run_ops (batch_ops b) reg)) := by
  unfold batch_request batch_ops
  rw [device_write_batch b.1 32 beyond (b.2.map format_d) reg]
  · rw [filterMap_token_pid_format_d b.2 h]
  · intro tok htok
    obtain ⟨id, -, rfl⟩ := List.mem_map.mp htok
    exact format_d_clean id

theorem mem_run_requests (beyond : List Nat) (batches : List batch) (init : List Int)
    (h : ∀ b ∈ batches, ∀ id ∈ b.2, INT_MIN ≤ id ∧ id ≤ INT_MAX) :
    ∀ x, x ∈ run_requests beyond (batches.map batch_request) init ↔
      x ∈ run_ops (batches_ops batches) init := by
  induction batches generalizing init with
  | nil => intro x; rfl
  | cons b bs ih =>
    intro x
    have hstep : run_requests beyond ((b :: bs).map batch_request) init =
        run_requests beyond (bs.map batch_request)
          (device_write beyond (batch_request b) init).2 := rfl
    rw [hstep, ih _ (fun b' hb' => h b' (List.mem_cons_of_mem _ hb'))]
    rw [device_write_batch_request beyond b init (h b (List.mem_cons_self _ _))]
    simp only [batches_ops, run_ops_append]
    exact mem_run_ops_congr _ _ _ (fun y => mem_dedup_pass _ y) x

/-! ## Hiding through the write interface, and the listing -/

theorem device_write_add_tokens (beyond : List Nat) (toks : List (List Nat))
    (reg : List Int) (h : ∀ tok ∈ toks, 32 ∉ tok ∧ NUL ∉ tok) :
    device_write beyond (bytes "add " ++ join_tokens toks) reg =
      (((bytes "add " ++ join_tokens toks).length : Int),
        dedup_scan (list_sort list_cmp (reg ++ toks.filterMap token_pid))) := by
  have hreq : bytes "add " ++ join_tokens toks =
      mode_tag INPUT_MODE._ADD ++ 32 :: join_tokens toks := by
    have h1 : bytes "add " = [97, 100, 100, 32] := by decide
    simp [h1, mode_tag, bytes_add]
  rw [hreq, device_write_batch INPUT_MODE._ADD 32 beyond toks reg h]
  have hmap : (toks.filterMap token_pid).map (mode_op INPUT_MODE._ADD) =
      (toks.filterMap token_pid).map registry_op.hide := rfl
  rw [hmap, run_ops_hide]

theorem dedup_pass_congr (L1 L2 : List Int) (h : ∀ v, v ∈ L1 ↔ v ∈ L2) :
    dedup_scan (list_sort list_cmp L1) = dedup_scan (list_sort list_cmp L2) := by
  rw [dedup_pass_eq_sort, dedup_pass_eq_sort]
  congr 1
  ext v
  simp [h v]

theorem device_read_loop_eq (reg : List Int) (out : List Nat) (offset : Int)
    (hfit : ∀ id ∈ reg, (sprintf_pid id).length + 1 ≤ MAX_MESSAGE_SIZE) :
    device_read_loop reg out offset =
      some (out ++ (records reg).flatten, offset + ((records reg).flatten.length : Int)) := by
  induction reg generalizing out offset with
  | nil => simp [device_read_loop, records]
  | cons id rest ih =>
    have hid := hfit id (List.mem_cons_self _ _)
    simp only [device_read_loop, hid, if_true,
      ih _ _ (fun x hx => hfit x (List.mem_cons_of_mem _ hx)), records, List.map_cons,
      List.flatten_cons, List.append_assoc, List.length_append, Nat.cast_add]
    congr 2
    omega

theorem device_read_zero (reg : List Int)
    (hfit : ∀ id ∈ reg, (sprintf_pid id).length + 1 ≤ MAX_MESSAGE_SIZE) :
    device_read reg 0 =
      some ((records reg).flatten, ((records reg).flatten.length : Int),
        ((records reg).flatten.length : Int)) := by
  simp [device_read, device_read_loop_eq reg [] 0 hfit]

theorem put_dec_injective (a b : Nat)
    (h : put_dec (a + 1) a [] = put_dec (b + 1) b []) : a = b := by
  have ha := put_dec_value (a + 1) a (by omega)
  have hb := put_dec_value (b + 1) b (by omega)
  rw [h] at ha
  omega

theorem format_d_injective : Function.Injective format_d := by
  intro a b h
  unfold format_d at h
  have hda := put_dec_digits (a.natAbs + 1) a.natAbs
  have hdb := put_dec_digits (b.natAbs + 1) b.natAbs
  by_cases ha : a < 0
  · by_cases hb : b < 0
    · simp only [ha, hb, if_true, List.cons.injEq, true_and] at h
      have := put_dec_injective _ _ h
      omega
    · simp only [ha, hb, if_true, if_false] at h
      have : (45 : Nat) ∈ put_dec (b.natAbs + 1) b.natAbs [] := by
        rw [← h]; exact List.mem_cons_self _ _
      have := hdb 45 this
      omega
  · by_cases hb : b < 0
    · simp only [ha, hb, if_true, if_false] at h
      have : (45 : Nat) ∈ put_dec (a.natAbs + 1) a.natAbs [] := by
        rw [h]; exact List.mem_cons_self _ _
      have := hda 45 this
      omega
    · simp only [ha, hb, if_false] at h
      have := put_dec_injective _ _ h
      omega

theorem sprintf_pid_injective : Function.Injective sprintf_pid := by
  intro a b h
  unfold sprintf_pid at h
  rw [List.append_assoc, List.append_assoc] at h
  have h1 := List.append_cancel_left h
  have h2 := List.append_cancel_right h1
  exact format_d_injective h2

theorem count_record (reg : List Int) (id : Int) :
    (records reg).count (sprintf_pid id) = reg.count id := by
  induction reg with
  | nil => simp [records]
  | cons a rest ih =>
    have hcons : records (a :: rest) = sprintf_pid a :: records rest := rfl
    rw [hcons, List.count_cons, List.count_cons, ih]
    by_cases h : a = id
    · subst h; simp
    · have h' : sprintf_pid a ≠ sprintf_pid id := fun e => h (sprintf_pid_injective e)
      simp [h, h']

/-! ## The size of a record -/

theorem put_dec_length_pos (fuel n : Nat) : 0 < (put_dec (fuel + 1) n []).length :=
  List.length_pos.mpr (put_dec_ne_nil fuel n)

/-- The number of digits: `n` is printed with at most `k` digits exactly when `n < 10^k`. -/
theorem put_dec_length_le_iff (fuel n k : Nat) (hn : n < fuel) (hk : 1 ≤ k) :
    (put_dec fuel n []).length ≤ k ↔ n < 10 ^ k := by
  induction fuel generalizing n k with
  | zero => omega
  | succ fuel ih =>
    simp only [put_dec]
    by_cases h0 : n / 10 = 0
    · have hlt : n < 10 := by omega
      have hpow : 10 ≤ 10 ^ k := by
        calc 10 = 10 ^ 1 := by norm_num
          _ ≤ 10 ^ k := Nat.pow_le_pow_right (by norm_num) hk
      simp only [h0, if_true, List.length_singleton]
      constructor
      · intro _; omega
      · intro _; exact hk
    · simp only [h0, if_false]
      rw [put_dec_append, List.length_append, List.length_singleton]
      obtain ⟨f, rfl⟩ : ∃ f, fuel = f + 1 := ⟨fuel - 1, by omega⟩
      have hpos := put_dec_length_pos f (n / 10)
      by_cases hk1 : k = 1
      · subst hk1
        constructor
        · intro h; omega
        · intro h; simp only [pow_one] at h; omega
      · obtain ⟨j, rfl⟩ : ∃ j, k = j + 1 := ⟨k - 1, by omega⟩
        have := ih (n / 10) j (by omega) (by omega)
        rw [Nat.succ_le_succ_iff, this, pow_succ, Nat.div_lt_iff_lt_mul (by norm_num)]

theorem format_d_length_le_six_iff (id : Int) :
    (format_d id).length ≤ 6 ↔ -99999 ≤ id ∧ id ≤ 999999 := by
  unfold format_d
  by_cases hv : id < 0
  · simp only [hv, if_true, List.length_cons]
    have := put_dec_length_le_iff (id.natAbs + 1) id.natAbs 5 (by omega) (by norm_num)
    rw [Nat.succ_le_succ_iff, this]
    norm_num
    omega
  · simp only [hv, if_false]
    have := put_dec_length_le_iff (id.natAbs + 1) id.natAbs 6 (by omega) (by norm_num)
    rw [this]
    norm_num
    omega

theorem sprintf_pid_length (id : Int) :
    (sprintf_pid id).length = (format_d id).length + 6 := by
  have h : (bytes "pid: ").length = 5 := by decide
  simp only [sprintf_pid, List.length_append, List.length_singleton, h]
  omega

theorem sprintf_pid_fits_iff (id : Int) :
    (sprintf_pid id).length + 1 ≤ MAX_MESSAGE_SIZE ↔ -99999 ≤ id ∧ id ≤ 999999 := by
  have hmax : MAX_MESSAGE_SIZE = 13 := by decide
  rw [sprintf_pid_length, hmax, ← format_d_length_le_six_iff]
  omega

theorem device_read_nonzero_offset (reg : List Int) (offset : Int) (h : offset ≠ 0) :
    device_read reg offset = some ([], offset, 0) := by
  simp [device_read, h]

/-! ## The number of lookups of the enumeration hook -/

theorem mem_skipped_ids (U H : List Int) (n : Int) (r : Option Int) (x : Int) :
    x ∈ skipped_ids U H n r ↔ (x ∈ U ∧ x ∈ H) ∧ n ≤ x ∧ before_result r x = true := by
  simp [skipped_ids]

theorem skipped_ids_subset (U H : List Int) (n : Int) (r : Option Int) :
    skipped_ids U H n r ⊆ H.toFinset := by
  intro x hx
  have := (mem_skipped_ids U H n r x).mp hx
  exact List.mem_toFinset.mpr this.1.2

/-- The skipping loop started on the candidate `real_find_ge_pid U m` after `calls` lookups:
it ends after as many further lookups as there are distinct hidden identifiers of `U` from
`m` up to the pid it returns. -/
theorem hook_find_ge_pid_loop_calls (U H : List Int)
    (hU : ∀ u ∈ U, INT_MIN ≤ u ∧ u < INT_MAX) :
    ∀ (fuel : Nat) (m : Int) (calls : Nat),
      U.countP (fun u => decide (m ≤ u)) + 1 ≤ fuel →
      ∃ r c, hook_find_ge_pid_loop (real_find_ge_pid U) H fuel (real_find_ge_pid U m) calls
          = some (r, c) ∧
        (∀ v, r = some v → m ≤ v) ∧
        c = calls + (skipped_ids U H m r).card := by
  intro fuel
  induction fuel with
  | zero => intro m calls h; omega
  | succ fuel ih =>
    intro m calls hfuel
    cases hreal : real_find_ge_pid U m with
    | none =>
      have hall := (real_find_ge_pid_none U m).mp hreal
      refine ⟨none, calls, by simp [hook_find_ge_pid_loop], ?_, ?_⟩
      · intro v hv
        cases hv
      · have hempty : skipped_ids U H m none = ∅ := by
          apply Finset.eq_empty_of_forall_not_mem
          intro x hx
          have hx' := (mem_skipped_ids U H m none x).mp hx
          have := hall x hx'.1.1
          omega
        rw [hempty]; simp
    | some q =>
      obtain ⟨hq, hmq, hqmin⟩ := (real_find_ge_pid_some U m q).mp hreal
      by_cases hhid : is_hidden_proc H q = true
      · have hqH : q ∈ H := (is_hidden_proc_iff H q).mp hhid
        have hwrap : wrap_int32 (q + 1) = q + 1 := by
          have := hU q hq
          apply wrap_int32_of_range
          · unfold INT_MIN at *; omega
          · unfold INT_MAX at *; omega
        have hlt : U.countP (fun u => decide (q + 1 ≤ u)) <
            U.countP (fun u => decide (m ≤ u)) := by
          apply countP_lt_of_imp U _ _ _ q hq
          · simpa using hmq
          · simp
          · intro x hx
            simp only [decide_eq_true_eq] at hx ⊢
            omega
        obtain ⟨r, c, hrun, hge, hc⟩ := ih (q + 1) (calls + 1) (by omega)
        refine ⟨r, c, ?_, ?_, ?_⟩
        · simp only [hook_find_ge_pid_loop, hhid, if_true, hwrap]
          exact hrun
        · intro v hv
          have := hge v hv
          omega
        · have hbefore : before_result r q = true := by
            cases r with
            | none => rfl
            | some v =>
              have := hge v rfl
              simp only [before_result, decide_eq_true_eq]
              omega
          have hnot : q ∉ skipped_ids U H (q + 1) r := by
            intro hin
            have := ((mem_skipped_ids U H (q + 1) r q).mp hin).2.1
            omega
          have hins : skipped_ids U H m r = insert q (skipped_ids U H (q + 1) r) := by
            ext x
            rw [Finset.mem_insert, mem_skipped_ids, mem_skipped_ids]
            constructor
            · rintro ⟨⟨hxU, hxH⟩, hmx, hbx⟩
              have h1 := hqmin x hxU hmx
              rcases lt_or_eq_of_le h1 with h2 | h2
              · exact Or.inr ⟨⟨hxU, hxH⟩, by omega, hbx⟩
              · exact Or.inl h2.symm
            · rintro (rfl | ⟨⟨hxU, hxH⟩, hqx, hbx⟩)
              · exact ⟨⟨hq, hqH⟩, hmq, hbefore⟩
              · exact ⟨⟨hxU, hxH⟩, by omega, hbx⟩
          rw [hc, hins, Finset.card_insert_of_not_mem hnot]
          omega
      · refine ⟨some q, calls, by simp [hook_find_ge_pid_loop, hhid], ?_, ?_⟩
        · intro v hv
          cases hv
          exact hmq
        · have hempty : skipped_ids U H m (some q) = ∅ := by
            apply Finset.eq_empty_of_forall_not_mem
            intro x hx
            have hx' := (mem_skipped_ids U H m (some q) x).mp hx
            have h1 := hqmin x hx'.1.1 hx'.2.1
            have h2 := hx'.2.2
            simp only [before_result, decide_eq_true_eq] at h2
            omega
          rw [hempty]; simp

theorem hook_remove_drain_eq (reg : List Int) : hook_remove_drain reg = [] := by
  induction reg with
  | nil => rfl
  | cons a rest ih => simpa [hook_remove_drain] using ih

/-! ## The start of the token scan -/

theorem c_string_append_nul_any (x rest : List Nat) :
    c_string (x ++ NUL :: rest) = c_string x := by
  induction x with
  | nil => simp [c_string]
  | cons c x ih =>
    by_cases hc : c = NUL
    · simp [c_string, hc]
    · simp [c_string, hc, ih]

/-- A request of at least four bytes is scanned inside its copy: the memory that follows
the copy has no influence on `device_write`. -/
theorem device_write_beyond_irrelevant (b1 b2 buffer : List Nat) (reg : List Int)
    (h : 4 ≤ buffer.length) :
    device_write b1 buffer reg = device_write b2 buffer reg := by
  have hstart : ∀ b : List Nat, ∀ mode : INPUT_MODE,
      process_tokens mode (((buffer ++ [NUL]) ++ b).drop 4) reg =
        process_tokens mode (buffer.drop 4) reg := by
    intro b mode
    have hd : ((buffer ++ [NUL]) ++ b).drop 4 = buffer.drop 4 ++ NUL :: b := by
      rw [List.append_assoc, List.drop_append_of_le_length h]
      rfl
    unfold process_tokens
    rw [hd, c_string_append_nul_any]
  unfold device_write
  simp only [hstart]

/-! ## What `kstrtol` accepts -/

theorem parse_integer_shape (s : List Nat) :
    ∀ (res rv : Nat) (ov : Bool), ∃ ds rest, s = ds ++ rest ∧
      (∀ c ∈ ds, 48 ≤ c ∧ c ≤ 57) ∧
      (∀ c t, rest = c :: t → ¬ (48 ≤ c ∧ c ≤ 57)) ∧
      (_parse_integer s res rv ov).2.1 = rv + ds.length := by
  induction s with
  | nil =>
    intro res rv ov
    exact ⟨[], [], rfl, by simp, by simp, by simp [_parse_integer]⟩
  | cons c s ih =>
    intro res rv ov
    by_cases hc : 48 ≤ c ∧ c ≤ 57
    · obtain ⟨ds, rest, hs, hds, hrest, hrv⟩ :=
        ih ((res * 10 + (c - 48)) % 18446744073709551616) (rv + 1)
          (ov || (decide (1152921504606846976 ≤ res) &&
            decide (res > (ULLONG_MAX - (c - 48)) / 10)))
      refine ⟨c :: ds, rest, by rw [hs]; rfl, ?_, hrest, ?_⟩
      · intro x hx
        rcases List.mem_cons.mp hx with rfl | hx
        · exact hc
        · exact hds x hx
      · simp only [_parse_integer, hc, and_self, if_true, List.length_cons]
        rw [hrv]
        omega
    · refine ⟨[], c :: s, rfl, by simp, ?_, ?_⟩
      · intro x t hxt
        cases hxt
        exact hc
      · simp [_parse_integer, hc]

/-- What `_kstrtoull` accepts is a string of decimal digits, possibly followed by one
newline. -/
theorem kstrtoull_ok_shape (s : List Nat) (u : Nat) (h : _kstrtoull s = .ok u) :
    ∃ ds, (∀ c ∈ ds, 48 ≤ c ∧ c ≤ 57) ∧ (s = ds ∨ s = ds ++ [10]) := by
  obtain ⟨ds, rest, hs, hds, hrest, hrv⟩ := parse_integer_shape s 0 0 false
  refine ⟨ds, hds, ?_⟩
  unfold _kstrtoull at h
  rcases hp : _parse_integer s 0 0 false with ⟨res, rv, ov⟩
  rw [hp] at h hrv
  simp only [Nat.zero_add] at hrv
  subst hrv
  have hdrop : s.drop ds.length = rest := by
    rw [hs]; exact List.drop_left ds rest
  simp only [hdrop] at h
  by_cases hov : ov = true
  · simp [hov] at h
  · by_cases hlen : ds.length = 0
    · simp [hov, hlen] at h
    · simp only [hov, hlen, if_false] at h
      cases rest with
      | nil => left; simpa using hs
      | cons c t =>
        by_cases hc : c = 10
        · subst hc
          cases t with
          | nil => right; exact hs
          | cons c2 t2 => simp at h
        · simp [hc] at h

/-- What `kstrtol` accepts is an optional sign, decimal digits, and possibly one newline at
the very end. -/
theorem kstrtol_ok_shape (tok : List Nat) (v : Int) (h : kstrtol tok = .ok v) :
    ∃ sign ds, (sign = [] ∨ sign = [45] ∨ sign = [43]) ∧ (∀ c ∈ ds, 48 ≤ c ∧ c ≤ 57) ∧
      (tok = sign ++ ds ∨ tok = sign ++ ds ++ [10]) := by
  unfold kstrtol kstrtoll at h
  cases tok with
  | nil =>
    simp only [kstrtoull] at h
    cases hk : _kstrtoull [] with
    | error e => rw [hk] at h; cases h
    | ok u =>
      obtain ⟨ds, hds, hshape⟩ := kstrtoull_ok_shape [] u hk
      exact ⟨[], ds, Or.inl rfl, hds, by simpa using hshape⟩
  | cons c t =>
    simp only at h
    by_cases h45 : c = 45
    · subst h45
      simp only [if_true] at h
      cases hk : _kstrtoull t with
      | error e => rw [hk] at h; cases h
      | ok u =>
        obtain ⟨ds, hds, hshape⟩ := kstrtoull_ok_shape t u hk
        refine ⟨[45], ds, Or.inr (Or.inl rfl), hds, ?_⟩
        rcases hshape with rfl | rfl
        · left; rfl
        · right; rfl
    · simp only [h45, if_false, kstrtoull] at h
      by_cases h43 : c = 43
      · subst h43
        simp only [if_true] at h
        cases hk : _kstrtoull t with
        | error e => rw [hk] at h; cases h
        | ok u =>
          obtain ⟨ds, hds, hshape⟩ := kstrtoull_ok_shape t u hk
          refine ⟨[43], ds, Or.inr (Or.inr rfl), hds, ?_⟩
          rcases hshape with rfl | rfl
          · left; rfl
          · right; rfl
      · simp only [h43, if_false] at h
        cases hk : _kstrtoull (c :: t) with
        | error e => rw [hk] at h; cases h
        | ok u =>
          obtain ⟨ds, hds, hshape⟩ := kstrtoull_ok_shape (c :: t) u hk
          exact ⟨[], ds, Or.inl rfl, hds, by simpa using hshape⟩

/-- A token that holds a tab or a space, or a newline that is not its last byte, is not
parsed by `kstrtol`. -/
theorem kstrtol_ok_no_inner_whitespace (tok : List Nat) (v : Int) (h : kstrtol tok = .ok v) :
    9 ∉ tok ∧ 32 ∉ tok ∧ ∀ a b, tok = a ++ 10 :: b → b = [] := by
  obtain ⟨sign, ds, hsign, hds, hshape⟩ := kstrtol_ok_shape tok v h
  have hpre : ∀ w : Nat, (w = 9 ∨ w = 32 ∨ w = 10) → w ∉ sign ++ ds := by
    intro w hw hin
    rcases List.mem_append.mp hin with hin | hin
    · rcases hsign with rfl | rfl | rfl
      · simp at hin
      · simp at hin; omega
      · simp at hin; omega
    · have := hds w hin
      omega
  refine ⟨?_, ?_, ?_⟩
  · rcases hshape with rfl | rfl
    · exact hpre 9 (Or.inl rfl)
    · intro hin
      rcases List.mem_append.mp hin with hin | hin
      · exact hpre 9 (Or.inl rfl) hin
      · simp at hin
  · rcases hshape with rfl | rfl
    · exact hpre 32 (Or.inr (Or.inl rfl))
    · intro hin
      rcases List.mem_append.mp hin with hin | hin
      · exact hpre 32 (Or.inr (Or.inl rfl)) hin
      · simp at hin
  · intro a b hab
    have h10 := hpre 10 (Or.inr (Or.inr rfl))
    rcases hshape with hs | hs
    · exfalso
      apply h10
      rw [← hs, hab]
      simp
    · rw [hs] at hab
      rcases List.append_eq_append_iff.mp hab with ⟨a', ha, hb⟩ | ⟨c', hc, hb⟩
      · cases a' with
        | nil => simpa using hb
        | cons x a'' =>
          simp only [List.cons_append, List.cons.injEq] at hb
          have := congrArg List.length hb.2
          simp at this
          omega
      · cases c' with
        | nil => simpa using hb
        | cons x c'' =>
          simp only [List.cons_append, List.cons.injEq] at hb
          exfalso
          apply h10
          rw [hc, ← hb.1]
          simp

theorem run_ops_unhide (ids : List Int) (reg : List Int) :
    run_ops (ids.map registry_op.unhide) reg = reg.filter (fun x => decide (x ∉ ids)) := by
  induction ids generalizing reg with
  | nil => simp [run_ops]
  | cons id ids ih =>
    have hstep : run_ops ((id :: ids).map registry_op.unhide) reg =
        run_ops (ids.map registry_op.unhide) (unhide_loop id reg) := rfl
    rw [hstep, ih, unhide_loop_eq_filter, List.filter_filter]
    congr 1
    funext x
    simp only [List.mem_cons, not_or, ne_eq, Bool.decide_and, Bool.and_comm]

/-- A batch request built from a mode and 32-bit identifiers: accepted, with the effect of
the operations on the listed identifiers followed by the sort-and-scan pass. -/
theorem device_write_batch_ids (input_mode : INPUT_MODE) (beyond : List Nat) (ids : List Int)
    (reg : List Int) (h : ∀ id ∈ ids, INT_MIN ≤ id ∧ id ≤ INT_MAX) :
    device_write beyond (mode_tag input_mode ++ 32 :: join_tokens (ids.map format_d)) reg =
      (((mode_tag input_mode ++ 32 :: join_tokens (ids.map format_d)).length : Int),
        dedup_scan (list_sort list_cmp (run_ops (ids.map (mode_op input_mode)) reg))) := by
  rw [device_write_batch input_mode 32 beyond (ids.map format_d) reg]
  · rw [filterMap_token_pid_format_d ids h]
  · intro tok htok
    obtain ⟨id, -, rfl⟩ := List.mem_map.mp htok
    exact format_d_clean id

/-! ## The end of the token scan -/

theorem c_string_idem (x : List Nat) : c_string (c_string x) = c_string x := by
  induction x with
  | nil => rfl
  | cons c x ih =>
    by_cases hc : c = NUL
    · simp [c_string, hc]
    · simp [c_string, hc, ih]

/-- An `add` request with an arbitrary body after the tag and the byte at index 3: the
tokens are those of the body up to its first NUL byte. -/
theorem device_write_add_body (beyond body : List Nat) (reg : List Int) :
    device_write beyond (bytes "add " ++ body) reg =
      (((bytes "add " ++ body).length : Int),
        dedup_scan (list_sort list_cmp
          ((strsep_tokens 32 (c_string body)).foldl (apply_token INPUT_MODE._ADD) reg))) := by
  have h1 : bytes "add " = [97, 100, 100, 32] := by decide
  simp only [device_write, h1, bytes_add, process_tokens]
  simp only [List.cons_append, List.nil_append, List.length_cons, List.take_succ_cons,
    List.take_zero, List.drop_succ_cons, List.drop_zero, List.append_assoc]
  rw [if_neg (by omega)]
  simp only [if_true, List.singleton_append, c_string_append_nul_any]

theorem device_write_add_scan_ends_at_nul (beyond body : List Nat) (reg : List Int) :
    (device_write beyond (bytes "add " ++ body) reg).2 =
      (device_write beyond (bytes "add " ++ c_string body) reg).2 := by
  rw [device_write_add_body, device_write_add_body, c_string_idem]

/-! ## The claims -/

/-- C1. With the underlying `find_ge_pid` the least-element-at-or-above operation over a
finite set `U` of identifiers below `INT_MAX`, and any registry `H` and start value `n`,
`hook_find_ge_pid` returns (given fuel for `|U| + 1` loop tests) the least element of `U`
that is at least `n` and not in `H`, and `NULL` exactly when there is no such element; a
`NULL` of the underlying operation is returned as it is, after that single call. For
`U = {1,2,3,4,5}` and `H = {2,3}` the enumeration from 1, re-calling with the result plus
one, gives 1, 4, 5 and then `NULL`. -/
theorem hook_find_ge_pid_skips_hidden (U H : List Int) (n : Int) (fuel : Nat)
    (hU : ∀ u ∈ U, INT_MIN ≤ u ∧ u < INT_MAX) (hfuel : U.length + 1 ≤ fuel) :
    (∃ r calls, hook_find_ge_pid (real_find_ge_pid U) H fuel n = some (r, calls) ∧
      (∀ p, r = some p ↔
        (p ∈ U ∧ n ≤ p ∧ p ∉ H) ∧ ∀ x, x ∈ U ∧ n ≤ x ∧ x ∉ H → p ≤ x) ∧
      (r = none ↔ ∀ x ∈ U, n ≤ x → x ∈ H)) ∧
    (real_find_ge_pid U n = none →
      hook_find_ge_pid (real_find_ge_pid U) H fuel n = some (none, 1)) ∧
    (hook_find_ge_pid (real_find_ge_pid [1, 2, 3, 4, 5]) [2, 3] 6 1 = some (some 1, 1) ∧
      hook_find_ge_pid (real_find_ge_pid [1, 2, 3, 4, 5]) [2, 3] 6 (1 + 1) = some (some 4, 3) ∧
      hook_find_ge_pid (real_find_ge_pid [1, 2, 3, 4, 5]) [2, 3] 6 (4 + 1) = some (some 5, 1) ∧
      hook_find_ge_pid (real_find_ge_pid [1, 2, 3, 4, 5]) [2, 3] 6 (5 + 1) = some (none, 1)) := by
  refine ⟨?_, ?_, by decide⟩
  · have hcount : U.countP (fun u => decide (n ≤ u)) + 1 ≤ fuel :=
      le_trans (Nat.succ_le_succ (List.countP_le_length _)) hfuel
    exact hook_find_ge_pid_loop_spec U H hU fuel n 1 hcount
  · intro hnone
    obtain ⟨k, hk⟩ : ∃ k, fuel = k + 1 := ⟨fuel - 1, by omega⟩
    subst hk
    simp [hook_find_ge_pid, hnone, hook_find_ge_pid_loop]

theorem hook_find_ge_pid_skips_hidden_witness :
    (∀ u ∈ [1, 2, 3, 4, 5], INT_MIN ≤ u ∧ u < INT_MAX) ∧
    ([1, 2, 3, 4, 5] : List Int).length + 1 ≤ 6 ∧
    ∃ r calls, hook_find_ge_pid (real_find_ge_pid [1, 2, 3, 4, 5]) [2, 3] 6 2 = some (r, calls) ∧
      (∀ p, r = some p ↔
        (p ∈ [1, 2, 3, 4, 5] ∧ 2 ≤ p ∧ p ∉ [2, 3]) ∧
          ∀ x, x ∈ [1, 2, 3, 4, 5] ∧ 2 ≤ x ∧ x ∉ [2, 3] → p ≤ x) ∧
      (r = none ↔ ∀ x ∈ ([1, 2, 3, 4, 5] : List Int), 2 ≤ x → x ∈ [2, 3]) :=
  ⟨by decide, by decide,
    (hook_find_ge_pid_skips_hidden [1, 2, 3, 4, 5] [2, 3] 2 6 (by decide) (by decide)).1⟩

/-- C2. For every registry content the sort-and-scan pass that ends `device_write` leaves
the ascending list of the distinct values: it is strictly ascending, holds exactly the
values that were present, each once, and no two adjacent entries are equal. Hence the
registry is strictly ascending after every accepted write request. -/
theorem dedup_pass_strictly_ascending :
    (∀ L : List Int,
      dedup_scan (list_sort list_cmp L) = L.toFinset.sort (· ≤ ·) ∧
      (dedup_scan (list_sort list_cmp L)).Sorted (· < ·) ∧
      (∀ v, v ∈ dedup_scan (list_sort list_cmp L) ↔ v ∈ L) ∧
      (∀ v, v ∈ L → (dedup_scan (list_sort list_cmp L)).count v = 1) ∧
      (dedup_scan (list_sort list_cmp L)).Chain' (· ≠ ·)) ∧
    (∀ (beyond buffer : List Nat) (hidden_proc : List Int),
      (device_write beyond buffer hidden_proc).1 ≠ -EAGAIN →
      (device_write beyond buffer hidden_proc).2.Sorted (· < ·)) := by
  constructor
  · intro L
    have hs : (dedup_scan (list_sort list_cmp L)).Sorted (· < ·) :=
      dedup_scan_sorted _ (list_sort_sorted L)
    have hmem : ∀ v, v ∈ dedup_scan (list_sort list_cmp L) ↔ v ∈ L := fun v => by
      rw [mem_dedup_scan]
      exact (list_sort_perm list_cmp L).mem_iff
    refine ⟨dedup_pass_eq_sort L, hs, hmem, ?_, ?_⟩
    · intro v hv
      exact List.count_eq_one_of_mem hs.nodup ((hmem v).mpr hv)
    · exact List.Pairwise.chain' (hs.imp (fun h => ne_of_lt h))
  · intro beyond buffer hidden_proc hacc
    unfold device_write at hacc ⊢
    simp only at hacc ⊢
    split_ifs at hacc ⊢ with h1 h2 h3
    · exact absurd rfl hacc
    · exact dedup_scan_sorted _ (list_sort_sorted _)
    · exact dedup_scan_sorted _ (list_sort_sorted _)
    · exact absurd rfl hacc

theorem dedup_pass_strictly_ascending_witness :
    (device_write [] (bytes "add 7 3 7") [3, 9, 3]).1 ≠ -EAGAIN ∧
    (device_write [] (bytes "add 7 3 7") [3, 9, 3]).2.Sorted (· < ·) :=
  ⟨by decide, dedup_pass_strictly_ascending.2 [] (bytes "add 7 3 7") [3, 9, 3] (by decide)⟩

/-- C3. For every registry `L` and identifier `id`, `unhide_process(id)` returns `SUCCESS`
and leaves `L` without any of the entries equal to `id`, the other entries in their
original order; `is_hidden_proc(id)` is false afterwards. -/
theorem unhide_process_removes_every_match (L : List Int) (id : Int) :
    (unhide_process id L).1 = SUCCESS ∧
    (unhide_process id L).2 = L.filter (fun x => decide (x ≠ id)) ∧
    is_hidden_proc (unhide_process id L).2 id = false := by
  refine ⟨rfl, unhide_loop_eq_filter id L, ?_⟩
  cases h : is_hidden_proc (unhide_process id L).2 id
  · rfl
  · have hm := (is_hidden_proc_iff _ _).mp h
    have : (unhide_process id L).2 = L.filter (fun x => decide (x ≠ id)) :=
      unhide_loop_eq_filter id L
    rw [this] at hm
    simp at hm

/-- C4 as stated fails. The request `"add "` followed by the tokens `x\0` (the byte `x` and
a NUL byte) and `20`, separated by a single space, is accepted with return value `len` = 9,
but the scan ends at the NUL byte: the token `20`, which `kstrtol` parses, is not hidden and
the registry stays empty. -/
theorem nul_byte_in_token_stops_the_scan :
    bytes "add " ++ join_tokens [[120, NUL], bytes "20"] =
      bytes "add x" ++ NUL :: bytes " 20" ∧
    device_write [] (bytes "add " ++ join_tokens [[120, NUL], bytes "20"]) [] = (9, []) ∧
    token_pid (bytes "20") = some 20 ∧
    token_pid [120, NUL] = none ∧
    is_hidden_proc
      (device_write [] (bytes "add " ++ join_tokens [[120, NUL], bytes "20"]) []).2 20
      = false := by
  decide

/-- C4, amended. For every request `"add "` followed by tokens that hold no NUL byte,
separated by single spaces, `device_write` returns `len`; the registry it leaves is the
sort-and-scan pass of the old entries followed by the identifiers of the tokens that
`kstrtol` parses, so every such token is hidden and a token that fails to parse changes
nothing and stops nothing. The request `"add 10 xx 20"` on the empty registry leaves
exactly 10 and 20. For an arbitrary text after `"add "` the scan ends at its first NUL
byte: the registry is the one the text cut at that byte leaves. -/
theorem device_write_add_skips_bad_tokens (beyond : List Nat) (toks : List (List Nat))
    (hidden_proc : List Int) (h : ∀ tok ∈ toks, 32 ∉ tok ∧ NUL ∉ tok) :
    (device_write beyond (bytes "add " ++ join_tokens toks) hidden_proc).1 =
      ((bytes "add " ++ join_tokens toks).length : Int) ∧
    (device_write beyond (bytes "add " ++ join_tokens toks) hidden_proc).2 =
      dedup_scan (list_sort list_cmp (hidden_proc ++ toks.filterMap token_pid)) ∧
    (∀ tok ∈ toks, ∀ v, kstrtol tok = .ok v →
      is_hidden_proc (device_write beyond (bytes "add " ++ join_tokens toks) hidden_proc).2
        (wrap_int32 v) = true) ∧
    (∀ id,
      is_hidden_proc (device_write beyond (bytes "add " ++ join_tokens toks) hidden_proc).2 id
        = true ↔
      id ∈ hidden_proc ∨ ∃ tok ∈ toks, ∃ v, kstrtol tok = .ok v ∧ wrap_int32 v = id) ∧
    device_write beyond (bytes "add 10 xx 20") [] = (12, [10, 20]) ∧
    (∀ body : List Nat,
      (device_write beyond (bytes "add " ++ body) hidden_proc).2 =
        (device_write beyond (bytes "add " ++ c_string body) hidden_proc).2) := by
  have hrun : ∀ (ts : List (List Nat)) (reg : List Int),
      (∀ tok ∈ ts, 32 ∉ tok ∧ NUL ∉ tok) →
      device_write beyond (bytes "add " ++ join_tokens ts) reg =
        (((bytes "add " ++ join_tokens ts).length : Int),
          dedup_scan (list_sort list_cmp (reg ++ ts.filterMap token_pid))) :=
    fun ts reg hts => device_write_add_tokens beyond ts reg hts
  have htok : ∀ (tok : List Nat) (id : Int),
      token_pid tok = some id ↔ ∃ v, kstrtol tok = .ok v ∧ wrap_int32 v = id := by
    intro tok id
    unfold token_pid
    cases kstrtol tok with
    | error e => simp
    | ok v => simp
  have hmem : ∀ id, is_hidden_proc
      (device_write beyond (bytes "add " ++ join_tokens toks) hidden_proc).2 id = true ↔
      id ∈ hidden_proc ∨ ∃ tok ∈ toks, ∃ v, kstrtol tok = .ok v ∧ wrap_int32 v = id := by
    intro id
    rw [hrun toks hidden_proc h]
    simp only [is_hidden_proc_dedup_pass, is_hidden_proc_iff, List.mem_append,
      List.mem_filterMap, htok]
  refine ⟨?_, ?_, ?_, hmem, ?_,
    fun body => device_write_add_scan_ends_at_nul beyond body hidden_proc⟩
  · rw [hrun toks hidden_proc h]
  · rw [hrun toks hidden_proc h]
  · intro tok htk v hv
    exact (hmem (wrap_int32 v)).mpr (Or.inr ⟨tok, htk, v, hv, rfl⟩)
  · have hex : bytes "add 10 xx 20" =
        bytes "add " ++ join_tokens [bytes "10", bytes "xx", bytes "20"] := by decide
    rw [hex, hrun _ _ (by decide)]
    decide

theorem device_write_add_skips_bad_tokens_witness :
    (∀ tok ∈ [bytes "10", bytes "xx", bytes "20"], 32 ∉ tok ∧ NUL ∉ tok) ∧
    (device_write [] (bytes "add " ++ join_tokens [bytes "10", bytes "xx", bytes "20"]) [7]).2 =
      dedup_scan (list_sort list_cmp
        ([7] ++ [bytes "10", bytes "xx", bytes "20"].filterMap token_pid)) :=
  ⟨by decide,
    (device_write_add_skips_bad_tokens [] [bytes "10", bytes "xx", bytes "20"] [7]
      (by decide)).2.1⟩

/-- C5. For every outcome of symbol resolution, of `ftrace_set_filter_ip` and of
`register_ftrace_function`, `hook_install` returns 0 exactly when all three succeed, and
otherwise the error of the first failing step, the later steps not being performed. When
registration fails after the filter was accepted, the last call made is
`ftrace_set_filter_ip` on the same address with `remove = 1`. Started with nothing
installed, every failing path ends with no filter and no registered callback. -/
theorem hook_install_first_error_and_rollback (lookup : Nat) (e_filter e_register : Int)
    (hook : ftrace_hook) (st : ftrace_state) :
    ((hook_install lookup e_filter e_register hook st).1 = 0 ↔
      lookup ≠ 0 ∧ e_filter = 0 ∧ e_register = 0) ∧
    (lookup = 0 →
      (hook_install lookup e_filter e_register hook st).1 = -ENOENT ∧
      (hook_install lookup e_filter e_register hook st).2.2.1 = [] ∧
      (hook_install lookup e_filter e_register hook st).2.2.2 = st) ∧
    (lookup ≠ 0 → e_filter ≠ 0 →
      (hook_install lookup e_filter e_register hook st).1 = e_filter ∧
      (hook_install lookup e_filter e_register hook st).2.2.1 =
        [ftrace_call.ftrace_set_filter_ip lookup 0] ∧
      (hook_install lookup e_filter e_register hook st).2.2.2 = st) ∧
    (lookup ≠ 0 → e_filter = 0 → e_register ≠ 0 →
      (hook_install lookup e_filter e_register hook st).1 = e_register ∧
      (hook_install lookup e_filter e_register hook st).2.2.1 =
        [ftrace_call.ftrace_set_filter_ip lookup 0, ftrace_call.register_ftrace_function,
          ftrace_call.ftrace_set_filter_ip lookup 1] ∧
      (hook_install lookup e_filter e_register hook st).2.2.2 =
        { filter := none, registered := st.registered }) ∧
    (lookup ≠ 0 → e_filter = 0 → e_register = 0 →
      (hook_install lookup e_filter e_register hook st).2.2.1 =
        [ftrace_call.ftrace_set_filter_ip lookup 0, ftrace_call.register_ftrace_function] ∧
      (hook_install lookup e_filter e_register hook st).2.2.2 =
        { filter := some lookup, registered := true }) ∧
    ((hook_install lookup e_filter e_register hook { filter := none, registered := false }).1
        ≠ 0 →
      (hook_install lookup e_filter e_register hook
        { filter := none, registered := false }).2.2.2 =
        { filter := none, registered := false }) := by
  have hENOENT : (-ENOENT : Int) ≠ 0 := by decide
  by_cases h0 : lookup = 0
  · subst h0
    simp [hook_install, hook_resolve_addr, hENOENT]
  · by_cases h1 : e_filter = 0
    · by_cases h2 : e_register = 0
      · simp [hook_install, hook_resolve_addr, h0, h1, h2]
      · simp [hook_install, hook_resolve_addr, h0, h1, h2]
    · simp [hook_install, hook_resolve_addr, h0, h1]

theorem hook_install_first_error_and_rollback_witness :
    (4096 : Nat) ≠ 0 ∧ (0 : Int) = 0 ∧ (-16 : Int) ≠ 0 ∧
    (hook_install 4096 0 (-16) ⟨8192, 0, 0, false, []⟩ ⟨none, false⟩).1 = -16 ∧
    (hook_install 4096 0 (-16) ⟨8192, 0, 0, false, []⟩ ⟨none, false⟩).2.2.1 =
      [ftrace_call.ftrace_set_filter_ip 4096 0, ftrace_call.register_ftrace_function,
        ftrace_call.ftrace_set_filter_ip 4096 1] ∧
    (hook_install 4096 0 (-16) ⟨8192, 0, 0, false, []⟩ ⟨none, false⟩).2.2.2 =
      { filter := none, registered := false } :=
  ⟨by decide, rfl, by decide,
    (hook_install_first_error_and_rollback 4096 0 (-16) ⟨8192, 0, 0, false, []⟩
      ⟨none, false⟩).2.2.2.1 (by decide) rfl (by decide)⟩

/-- C6 (the code at the failing input). When `find_ge_pid` cannot be resolved and the
device registration steps all succeed, `hook_install` returns `-ENOENT`, yet
`_hideproc_init` returns 0; the same holds when the filter or the registration is
rejected: the value `hook_install` returns never reaches the return value of
`_hideproc_init`. -/
theorem hideproc_init_returns_zero_on_hook_failure (hook_find_ge_pid_addr lookup : Nat)
    (e_filter e_register : Int) (m : module_state) :
    (hook_install 0 e_filter e_register
      { m.hook with func := hook_find_ge_pid_addr, orig := 0 } m.ftrace).1 = -ENOENT ∧
    (_hideproc_init 0 0 false false hook_find_ge_pid_addr 0 e_filter e_register m).1 = 0 ∧
    (_hideproc_init 0 0 false false hook_find_ge_pid_addr lookup e_filter e_register m).1 = 0 ∧
    (_hideproc_init 0 0 false false hook_find_ge_pid_addr 0 e_filter e_register m).2.2.ftrace
      = m.ftrace := by
  refine ⟨?_, ?_, ?_, ?_⟩
  · simp [hook_install, hook_resolve_addr, ENOENT]
  · simp [_hideproc_init]
  · simp [_hideproc_init]
  · simp [_hideproc_init, init_hook, hook_install, hook_resolve_addr, ENOENT]

/-- C9. For every hook, `ip` and `parent_ip`, `hook_ftrace_thunk` sets `regs->ip` to
`hook->func` when `parent_ip` is outside this module and leaves `regs` as it is when
`parent_ip` is inside; so, the instruction pointer not being `hook->func` before the call,
it is `hook->func` afterwards if and only if `parent_ip` is outside the module. -/
theorem hook_ftrace_thunk_redirects_iff_outside (within_module : Nat → Bool)
    (hook : ftrace_hook) (ip parent_ip : Nat) (regs : pt_regs) :
    (within_module parent_ip = false →
      hook_ftrace_thunk within_module hook ip parent_ip regs =
        { ip := hook.func, others := regs.others }) ∧
    (within_module parent_ip = true →
      hook_ftrace_thunk within_module hook ip parent_ip regs = regs) ∧
    (regs.ip ≠ hook.func →
      ((hook_ftrace_thunk within_module hook ip parent_ip regs).ip = hook.func ↔
        within_module parent_ip = false)) := by
  cases h : within_module parent_ip
  · simp [hook_ftrace_thunk, h]
  · simp [hook_ftrace_thunk, h]

theorem hook_ftrace_thunk_redirects_iff_outside_witness :
    (fun a : Nat => decide (1000 ≤ a ∧ a < 2000)) 1500 = true ∧
    hook_ftrace_thunk (fun a : Nat => decide (1000 ≤ a ∧ a < 2000))
      ⟨1200, 0, 0, false, []⟩ 77 1500 ⟨77, [1, 2]⟩ = ⟨77, [1, 2]⟩ :=
  ⟨by decide,
    (hook_ftrace_thunk_redirects_iff_outside (fun a : Nat => decide (1000 ≤ a ∧ a < 2000))
      ⟨1200, 0, 0, false, []⟩ 77 1500 ⟨77, [1, 2]⟩).2.1 (by decide)⟩

/-- C10. A write request shorter than three bytes, or whose first three bytes are neither
`add` nor `del`, is rejected: `device_write` returns `-EAGAIN` (-11) and the registry is
the one it was given. Every other request is accepted: `device_write` returns `len`. -/
theorem device_write_rejects_or_returns_len (beyond buffer : List Nat)
    (hidden_proc : List Int) :
    ((buffer.length < 3 ∨ (buffer.take 3 ≠ bytes "add" ∧ buffer.take 3 ≠ bytes "del")) →
      device_write beyond buffer hidden_proc = (-11, hidden_proc)) ∧
    (¬ (buffer.length < 3 ∨ (buffer.take 3 ≠ bytes "add" ∧ buffer.take 3 ≠ bytes "del")) →
      (device_write beyond buffer hidden_proc).1 = (buffer.length : Int)) := by
  by_cases hlen : buffer.length < 3
  · simp [device_write, hlen, EAGAIN]
  · have htake : (buffer ++ [NUL]).take 3 = buffer.take 3 :=
      List.take_append_of_le_length (by omega)
    by_cases ha : buffer.take 3 = bytes "add"
    · simp [device_write, hlen, htake, ha]
    · by_cases hd : buffer.take 3 = bytes "del"
      · have hne : ¬ bytes "del" = bytes "add" := by decide
        simp [device_write, hlen, htake, hd, hne]
      · simp [device_write, hlen, htake, ha, hd, EAGAIN]

theorem device_write_rejects_or_returns_len_witness :
    ((bytes "hide 1").length < 3 ∨
      ((bytes "hide 1").take 3 ≠ bytes "add" ∧ (bytes "hide 1").take 3 ≠ bytes "del")) ∧
    device_write [] (bytes "hide 1") [4, 2, 4] = (-11, [4, 2, 4]) :=
  ⟨by decide,
    (device_write_rejects_or_returns_len [] (bytes "hide 1") [4, 2, 4]).1 (by decide)⟩

/-- C7 as stated fails. Unhiding 5 and then hiding 5 leaves 5 hidden, while
(initial ∪ added) − removed does not contain 5; the same through the write interface with
the request `"del 5"` followed by `"add 5"`. -/
theorem hidden_set_formula_fails_when_hidden_again :
    is_hidden_proc (run_ops [registry_op.unhide 5, registry_op.hide 5] []) 5 = true ∧
    ¬ (((5 : Int) ∈ ([] : List Int) ∨
        (5 : Int) ∈ added_ids [registry_op.unhide 5, registry_op.hide 5]) ∧
      (5 : Int) ∉ removed_ids [registry_op.unhide 5, registry_op.hide 5]) ∧
    is_hidden_proc (run_requests [] [bytes "del 5", bytes "add 5"] []) 5 = true := by
  decide

/-- C7, amended. For any initial registry and any sequence of hide and unhide operations in
which no identifier is hidden again after it was unhidden, the identifiers hidden in the
final registry are those of (initial ∪ added) − removed; for an arbitrary sequence they are
those of (initial ∪ added) − removed together with the identifiers whose last operation
hides them. The same holds for any sequence of `add` and `del` batch requests over 32-bit
identifiers. -/
theorem hidden_set_formula_without_hiding_again :
    (∀ (init : List Int) (ops : List registry_op) (x : Int),
      ops.Pairwise (fun a b => hides_again a b = false) →
      (is_hidden_proc (run_ops ops init) x = true ↔
        (x ∈ init ∨ x ∈ added_ids ops) ∧ x ∉ removed_ids ops)) ∧
    (∀ (init : List Int) (ops : List registry_op) (x : Int),
      (is_hidden_proc (run_ops ops init) x = true ↔
        last_op_hides ops x = true ∨
          ((x ∈ init ∨ x ∈ added_ids ops) ∧ x ∉ removed_ids ops))) ∧
    (∀ (beyond : List Nat) (init : List Int) (batches : List batch) (x : Int),
      (∀ b ∈ batches, ∀ id ∈ b.2, INT_MIN ≤ id ∧ id ≤ INT_MAX) →
      (batches_ops batches).Pairwise (fun a b => hides_again a b = false) →
      (is_hidden_proc (run_requests beyond (batches.map batch_request) init) x = true ↔
        (x ∈ init ∨ x ∈ added_ids (batches_ops batches)) ∧
          x ∉ removed_ids (batches_ops batches))) ∧
    (∀ (beyond : List Nat) (init : List Int) (batches : List batch) (x : Int),
      (∀ b ∈ batches, ∀ id ∈ b.2, INT_MIN ≤ id ∧ id ≤ INT_MAX) →
      (is_hidden_proc (run_requests beyond (batches.map batch_request) init) x = true ↔
        last_op_hides (batches_ops batches) x = true ∨
          ((x ∈ init ∨ x ∈ added_ids (batches_ops batches)) ∧
            x ∉ removed_ids (batches_ops batches)))) := by
  refine ⟨?_, ?_, ?_, ?_⟩
  · intro init ops x h
    rw [is_hidden_proc_iff]
    exact mem_run_ops ops init x h
  · intro init ops x
    rw [is_hidden_proc_iff]
    exact mem_run_ops_exact ops init x
  · intro beyond init batches x hrange h
    rw [is_hidden_proc_iff, mem_run_requests beyond batches init hrange x]
    exact mem_run_ops _ init x h
  · intro beyond init batches x hrange
    rw [is_hidden_proc_iff, mem_run_requests beyond batches init hrange x]
    exact mem_run_ops_exact _ init x

theorem hidden_set_formula_without_hiding_again_witness :
    [registry_op.hide 5, registry_op.unhide 3, registry_op.unhide 5, registry_op.hide 8].Pairwise
      (fun a b => hides_again a b = false) ∧
    (is_hidden_proc
        (run_ops [registry_op.hide 5, registry_op.unhide 3, registry_op.unhide 5,
          registry_op.hide 8] [3, 4]) 8 = true ↔
      ((8 : Int) ∈ [3, 4] ∨ (8 : Int) ∈ added_ids [registry_op.hide 5, registry_op.unhide 3,
          registry_op.unhide 5, registry_op.hide 8]) ∧
        (8 : Int) ∉ removed_ids [registry_op.hide 5, registry_op.unhide 3,
          registry_op.unhide 5, registry_op.hide 8]) :=
  ⟨by decide,
    hidden_set_formula_without_hiding_again.1 [3, 4]
      [registry_op.hide 5, registry_op.unhide 3, registry_op.unhide 5, registry_op.hide 8] 8
      (by decide)⟩

/-- Hiding twice where every record fits `message`: for a 32-bit identifier `N` and a
registry whose records, like that of `N`, fit `message`, after two requests `"add N"`, or
after one request `"add N N"`, the listing from offset 0 is the concatenation of the
records of the registry and holds the record `"pid: N\n"` exactly once, and it is the
listing after a single `"add N"`. -/
theorem hide_twice_lists_once (beyond : List Nat) (N : Int) (hidden_proc : List Int)
    (h1 : INT_MIN ≤ N) (h2 : N ≤ INT_MAX)
    (hN : (sprintf_pid N).length + 1 ≤ MAX_MESSAGE_SIZE)
    (hfit : ∀ id ∈ hidden_proc, (sprintf_pid id).length + 1 ≤ MAX_MESSAGE_SIZE) :
    (device_write beyond (bytes "add " ++ format_d N)
        (device_write beyond (bytes "add " ++ format_d N) hidden_proc).2).2 =
      (device_write beyond (bytes "add " ++ format_d N) hidden_proc).2 ∧
    (device_write beyond (bytes "add " ++ (format_d N ++ 32 :: format_d N)) hidden_proc).2 =
      (device_write beyond (bytes "add " ++ format_d N) hidden_proc).2 ∧
    device_read (device_write beyond (bytes "add " ++ format_d N) hidden_proc).2 0 =
      some
        ((records (device_write beyond (bytes "add " ++ format_d N) hidden_proc).2).flatten,
          ((records (device_write beyond (bytes "add " ++ format_d N)
            hidden_proc).2).flatten.length : Int),
          ((records (device_write beyond (bytes "add " ++ format_d N)
            hidden_proc).2).flatten.length : Int)) ∧
    (records (device_write beyond (bytes "add " ++ format_d N) hidden_proc).2).count
      (bytes "pid: " ++ format_d N ++ [10]) = 1 := by
  have hclean := format_d_clean N
  have hpid := token_pid_format_d N h1 h2
  have hone : ∀ reg : List Int,
      (device_write beyond (bytes "add " ++ format_d N) reg).2 =
        dedup_scan (list_sort list_cmp (reg ++ [N])) := by
    intro reg
    have := device_write_add_tokens beyond [format_d N] reg
      (by intro tok htok; rw [List.mem_singleton.mp htok]; exact hclean)
    simp only [join_tokens, List.filterMap_cons, hpid, List.filterMap_nil] at this
    rw [this]
  have htwo : (device_write beyond (bytes "add " ++ (format_d N ++ 32 :: format_d N))
        hidden_proc).2 = dedup_scan (list_sort list_cmp (hidden_proc ++ [N, N])) := by
    have := device_write_add_tokens beyond [format_d N, format_d N] hidden_proc
      (by
        intro tok htok
        rcases List.mem_cons.mp htok with rfl | htok
        · exact hclean
        · rw [List.mem_singleton.mp htok]; exact hclean)
    simp only [join_tokens, List.filterMap_cons, hpid, List.filterMap_nil] at this
    rw [this]
  have hsame2 : dedup_scan (list_sort list_cmp
        (dedup_scan (list_sort list_cmp (hidden_proc ++ [N])) ++ [N])) =
      dedup_scan (list_sort list_cmp (hidden_proc ++ [N])) := by
    apply dedup_pass_congr
    intro v
    simp only [List.mem_append, mem_dedup_pass, List.mem_singleton]
    tauto
  have hsame12 : dedup_scan (list_sort list_cmp (hidden_proc ++ [N, N])) =
      dedup_scan (list_sort list_cmp (hidden_proc ++ [N])) := by
    apply dedup_pass_congr
    intro v
    simp only [List.mem_append, List.mem_cons, List.mem_singleton, List.not_mem_nil, or_false]
    tauto
  have hcount : (records (dedup_scan (list_sort list_cmp (hidden_proc ++ [N])))).count
      (bytes "pid: " ++ format_d N ++ [10]) = 1 := by
    have hrec : bytes "pid: " ++ format_d N ++ [10] = sprintf_pid N := rfl
    rw [hrec, count_record]
    exact (dedup_pass_strict_count (hidden_proc ++ [N]) N (by simp))
  have hfit1 : ∀ id ∈ dedup_scan (list_sort list_cmp (hidden_proc ++ [N])),
      (sprintf_pid id).length + 1 ≤ MAX_MESSAGE_SIZE := by
    intro id hid
    rcases List.mem_append.mp ((mem_dedup_pass _ id).mp hid) with hin | hin
    · exact hfit id hin
    · rw [List.mem_singleton.mp hin]; exact hN
  rw [hone (device_write beyond (bytes "add " ++ format_d N) hidden_proc).2, hone hidden_proc,
    htwo, hsame2, hsame12]
  exact ⟨rfl, rfl, device_read_zero _ hfit1, hcount⟩

/-- C8 (the code at the failing input). Hiding 1234567 twice leaves the single entry
1234567, whose record `"pid: 1234567\n"` takes 14 bytes with its terminating NUL while
`message` has `MAX_MESSAGE_SIZE` = 13: the listing overruns `message` and has no defined
result. With 42 in place of 1234567 the listing is `"pid: 42\n"`, once. -/
theorem hide_twice_listing_overruns_message :
    (device_write [] (bytes "add 1234567")
        (device_write [] (bytes "add 1234567") []).2).2 = [1234567] ∧
    (device_write [] (bytes "add 1234567 1234567") []).2 = [1234567] ∧
    sprintf_pid 1234567 = bytes "pid: 1234567\n" ∧
    (sprintf_pid 1234567).length + 1 = 14 ∧
    MAX_MESSAGE_SIZE = 13 ∧
    device_read [1234567] 0 = none ∧
    device_read (device_write [] (bytes "add 42") (device_write [] (bytes "add 42") []).2).2 0
      = some (bytes "pid: 42\n", 8, 8) := by
  decide

/-- C11 (the code at the failing input). For the registry holding the single entry 1234567
the record and its terminating NUL take 14 bytes, `message` has 13, and the listing from
offset 0 has no defined result. For the registry 3, -17 the listing is
`"pid: 3\npid: -17\n"`, 16 bytes, and 16 is both the new offset and the return value; for
the empty registry nothing is emitted and 0 is returned. -/
theorem device_read_overruns_message_on_long_id :
    (sprintf_pid 1234567).length + 1 = 14 ∧
    MAX_MESSAGE_SIZE = 13 ∧
    device_read [1234567] 0 = none ∧
    device_read [3, 1234567, 5] 0 = none ∧
    device_read [3, -17] 0 = some (bytes "pid: 3\npid: -17\n", 16, 16) ∧
    device_read [] 0 = some ([], 0, 0) := by
  decide

/-- C12 (the code at the failing input). For the registry holding 1234567 a listing started
at offset 0 overruns `message`: neither the first nor the second listing has a defined
result. A call with the non-zero offset 14 on the same registry returns 0, emits nothing
and leaves the offset at 14; for the registry 3, -17 two listings started at offset 0 are
the same. -/
theorem device_read_twice_overruns_message_on_long_id :
    device_read [1234567] 0 = none ∧
    device_read [1234567] 14 = some ([], 14, 0) ∧
    device_read [3, -17] 0 = some (bytes "pid: 3\npid: -17\n", 16, 16) ∧
    device_read [3, -17] 16 = some ([], 16, 0) := by
  decide

/-- C17. The record that `device_read` formats for an identifier, with its terminating NUL,
fits the `MAX_MESSAGE_SIZE` = 13 bytes of `message` exactly when the identifier is between
-99999 and 999999, that is when its decimal rendering has at most 6 characters; this holds
for every integer, so for every 32-bit identifier. The listing of the registry holding
that single identifier has a defined result under the same condition. -/
theorem record_fits_message_iff (id : Int) :
    MAX_MESSAGE_SIZE = 13 ∧
    ((sprintf_pid id).length + 1 ≤ MAX_MESSAGE_SIZE ↔ -99999 ≤ id ∧ id ≤ 999999) ∧
    ((sprintf_pid id).length + 1 ≤ MAX_MESSAGE_SIZE ↔ (format_d id).length ≤ 6) ∧
    (device_read [id] 0 ≠ none ↔ -99999 ≤ id ∧ id ≤ 999999) := by
  refine ⟨by decide, sprintf_pid_fits_iff id, ?_, ?_⟩
  · rw [sprintf_pid_fits_iff, format_d_length_le_six_iff]
  · rw [← sprintf_pid_fits_iff]
    by_cases hfit : (sprintf_pid id).length + 1 ≤ MAX_MESSAGE_SIZE
    · simp [device_read, device_read_loop, hfit]
    · simp [device_read, device_read_loop, hfit]

/-- C15. For every registry content and every outcome of `unregister_ftrace_function` and
of `ftrace_set_filter_ip`, `hook_remove` makes exactly two calls to ftrace, first
`unregister_ftrace_function`, then `ftrace_set_filter_ip` on the hook's address with
`remove = 1`; the registry is already empty when the first call is made and it is empty
afterwards; a failure of either call only adds a printed line. -/
theorem hook_remove_runs_to_completion (e_unregister e_filter : Int) (hook : ftrace_hook)
    (hidden_proc : List Int) :
    (hook_remove e_unregister e_filter hook hidden_proc).1 = [] ∧
    (hook_remove e_unregister e_filter hook hidden_proc).2.1 =
      [(ftrace_call.unregister_ftrace_function, []),
        (ftrace_call.ftrace_set_filter_ip hook.address 1, [])] ∧
    (hook_remove e_unregister e_filter hook hidden_proc).2.2 =
      (if e_unregister ≠ 0 then [printk_line.unregister_ftrace_function_failed e_unregister]
        else []) ++
      (if e_filter ≠ 0 then [printk_line.ftrace_set_filter_ip_failed e_filter] else []) := by
  simp [hook_remove, hook_remove_drain_eq]

/-- C16. With the underlying `find_ge_pid` the least-element-at-or-above operation over a
finite set `U` of identifiers below `INT_MAX`, for every registry `H` and start value `n`
the loop of `hook_find_ge_pid` ends (fuel for `|U| + 1` loop tests is enough), and the
number of calls it makes to the underlying operation is 1 plus the number of distinct
hidden identifiers of `U` that are at least `n` and lie before the returned pid, hence at
most 1 plus the number of distinct values in the registry. -/
theorem hook_find_ge_pid_lookups_bounded (U H : List Int) (n : Int) (fuel : Nat)
    (hU : ∀ u ∈ U, INT_MIN ≤ u ∧ u < INT_MAX) (hfuel : U.length + 1 ≤ fuel) :
    ∃ r calls, hook_find_ge_pid (real_find_ge_pid U) H fuel n = some (r, calls) ∧
      calls = 1 + (skipped_ids U H n r).card ∧
      calls ≤ 1 + (skipped_ids U H n r).card ∧
      calls ≤ 1 + H.toFinset.card := by
  have hcount : U.countP (fun u => decide (n ≤ u)) + 1 ≤ fuel :=
    le_trans (Nat.succ_le_succ (List.countP_le_length _)) hfuel
  obtain ⟨r, c, hrun, -, hc⟩ := hook_find_ge_pid_loop_calls U H hU fuel n 1 hcount
  refine ⟨r, c, hrun, hc, le_of_eq hc, ?_⟩
  rw [hc]
  exact Nat.add_le_add_left (Finset.card_le_card (skipped_ids_subset U H n r)) 1

theorem hook_find_ge_pid_lookups_bounded_witness :
    (∀ u ∈ [1, 2, 3, 4, 5], INT_MIN ≤ u ∧ u < INT_MAX) ∧
    ([1, 2, 3, 4, 5] : List Int).length + 1 ≤ 6 ∧
    ∃ r calls, hook_find_ge_pid (real_find_ge_pid [1, 2, 3, 4, 5]) [3, 2, 9, 2] 6 2
        = some (r, calls) ∧
      calls = 1 + (skipped_ids [1, 2, 3, 4, 5] [3, 2, 9, 2] 2 r).card ∧
      calls ≤ 1 + (skipped_ids [1, 2, 3, 4, 5] [3, 2, 9, 2] 2 r).card ∧
      calls ≤ 1 + ([3, 2, 9, 2] : List Int).toFinset.card :=
  ⟨by decide, by decide,
    hook_find_ge_pid_lookups_bounded [1, 2, 3, 4, 5] [3, 2, 9, 2] 2 6 (by decide)
      (by decide)⟩

/-- C18. A token that `kstrtol` parses to the `long` value `v` is applied to the registry as
the identifier `v` reduced to a 32-bit signed `pid_t`: a value in the `int` range that
differs from `v` by a multiple of `2^32`. Values outside the 32-bit range are not rejected:
`kstrtol` accepts `"4294967297"`, the request `"add 4294967297"` hides 1 and the request
`"del 4294967297"` unhides 1. -/
theorem token_applied_as_pid_t (input_mode : INPUT_MODE) (hidden_proc : List Int)
    (found : List Nat) (v : Int) (beyond : List Nat) (h : kstrtol found = .ok v) :
    apply_token input_mode hidden_proc found =
      apply_op hidden_proc (mode_op input_mode (wrap_int32 v)) ∧
    INT_MIN ≤ wrap_int32 v ∧ wrap_int32 v ≤ INT_MAX ∧
    (v - wrap_int32 v) % 4294967296 = 0 ∧
    kstrtol (bytes "4294967297") = .ok 4294967297 ∧
    wrap_int32 4294967297 = 1 ∧
    device_write beyond (bytes "add 4294967297") [] = (14, [1]) ∧
    device_write beyond (bytes "del 4294967297") [1, 2] = (14, [2]) := by
  refine ⟨?_, ?_, ?_, ?_, by rfl, by decide, ?_, ?_⟩
  · rw [apply_token_eq]
    simp [token_pid, h]
  · unfold wrap_int32 INT_MIN; omega
  · unfold wrap_int32 INT_MAX; omega
  · unfold wrap_int32; omega
  · rw [device_write_beyond_irrelevant beyond [] _ _ (by decide)]
    decide
  · rw [device_write_beyond_irrelevant beyond [] _ _ (by decide)]
    decide

theorem token_applied_as_pid_t_witness :
    kstrtol (bytes "4294967297") = .ok 4294967297 ∧
    apply_token INPUT_MODE._ADD [5] (bytes "4294967297") =
      apply_op [5] (mode_op INPUT_MODE._ADD (wrap_int32 4294967297)) :=
  ⟨by rfl,
    (token_applied_as_pid_t INPUT_MODE._ADD [5] (bytes "4294967297") 4294967297 []
      (by rfl)).1⟩

/-- C19 (the code at the failing input). For the three-byte requests `"add"` and `"del"`
the copy `message` has four bytes, at indices 0 to 3, and the scan starts at index 4: what
`strsep` reads is the memory that follows the copy, none of it a byte of the copy. With
the bytes `"7"` in that memory the request `"add"` hides 7 and the request `"del"` unhides
7; with a NUL there nothing is applied. -/
theorem scan_starts_past_copy_of_bare_tag :
    (bytes "add" ++ [NUL]).length = 4 ∧
    (bytes "del" ++ [NUL]).length = 4 ∧
    (∀ beyond : List Nat, ((bytes "add" ++ [NUL]) ++ beyond).drop 4 = beyond) ∧
    (∀ beyond : List Nat, ((bytes "del" ++ [NUL]) ++ beyond).drop 4 = beyond) ∧
    device_write [] (bytes "add") [] = (3, []) ∧
    device_write (bytes "7") (bytes "add") [] = (3, [7]) ∧
    device_write (bytes "7") (bytes "del") [7] = (3, []) := by
  refine ⟨by decide, by decide, ?_, ?_, by decide, by decide, by decide⟩
  · intro beyond
    rw [bytes_add]; rfl
  · intro beyond
    rw [bytes_del]; rfl

/-- C13 as stated fails. With a tab or a newline between the numbers the request holds one
token, which `kstrtol` rejects: `"add 10\t20"` and `"add 10\n20"` are accepted and hide
neither 10 nor 20. -/
theorem tab_or_newline_does_not_separate :
    device_write [] (bytes "add 10\t20") [] = (9, []) ∧
    device_write [] (bytes "add 10\n20") [] = (9, []) ∧
    is_hidden_proc (device_write [] (bytes "add 10\t20") []).2 10 = false ∧
    is_hidden_proc (device_write [] (bytes "add 10\t20") []).2 20 = false ∧
    is_hidden_proc (device_write [] (bytes "add 10\n20") []).2 10 = false ∧
    is_hidden_proc (device_write [] (bytes "add 10\n20") []).2 20 = false := by
  decide

/-- C13, amended. In a batch request the decimal integers that follow the mode tag are
separated by single spaces: every 32-bit integer of a space-separated sequence is applied,
so after an `add` request every listed identifier is hidden. A tab or a newline does not
separate: a text without a space is one token, and a token that holds a tab, or a newline
that is not its last byte, is not parsed. The request `"add 10 20"` hides 10 and 20. -/
theorem device_write_splits_on_spaces_only (input_mode : INPUT_MODE) (beyond : List Nat)
    (ids : List Int) (hidden_proc : List Int)
    (h : ∀ id ∈ ids, INT_MIN ≤ id ∧ id ≤ INT_MAX) :
    device_write beyond (mode_tag input_mode ++ 32 :: join_tokens (ids.map format_d))
        hidden_proc =
      (((mode_tag input_mode ++ 32 :: join_tokens (ids.map format_d)).length : Int),
        dedup_scan (list_sort list_cmp (run_ops (ids.map (mode_op input_mode)) hidden_proc))) ∧
    (∀ id ∈ ids,
      is_hidden_proc
        (device_write beyond (bytes "add " ++ join_tokens (ids.map format_d)) hidden_proc).2 id
        = true) ∧
    (∀ tok : List Nat, 32 ∉ tok → strsep_tokens 32 tok = [tok]) ∧
    (∀ (tok : List Nat) (v : Int), kstrtol tok = .ok v →
      9 ∉ tok ∧ ∀ a b, tok = a ++ 10 :: b → b = []) ∧
    device_write beyond (bytes "add 10 20") [] = (9, [10, 20]) := by
  refine ⟨device_write_batch_ids input_mode beyond ids hidden_proc h, ?_, ?_, ?_, ?_⟩
  · intro id hid
    rw [device_write_add_tokens beyond (ids.map format_d) hidden_proc
      (by
        intro tok htok
        obtain ⟨x, -, rfl⟩ := List.mem_map.mp htok
        exact format_d_clean x)]
    rw [filterMap_token_pid_format_d ids h, is_hidden_proc_dedup_pass, is_hidden_proc_iff]
    exact List.mem_append_right _ hid
  · intro tok htok
    exact strsep_tokens_no_delim 32 tok htok
  · intro tok v hv
    have := kstrtol_ok_no_inner_whitespace tok v hv
    exact ⟨this.1, this.2.2⟩
  · rw [device_write_beyond_irrelevant beyond [] _ _ (by decide)]
    decide

theorem device_write_splits_on_spaces_only_witness :
    (∀ id ∈ [10, -3, 20], INT_MIN ≤ id ∧ id ≤ INT_MAX) ∧
    ∀ id ∈ [10, -3, 20],
      is_hidden_proc
        (device_write [] (bytes "add " ++ join_tokens ([10, -3, 20].map format_d)) [7]).2 id
        = true :=
  ⟨by decide,
    (device_write_splits_on_spaces_only INPUT_MODE._ADD [] [10, -3, 20] [7] (by decide)).2.1⟩

/-- C14 as stated fails. The request `"remove 5"` is rejected: `device_write` returns
`-EAGAIN` (-11) and 5 stays hidden. -/
theorem remove_tag_is_rejected :
    device_write [] (bytes "remove 5") [5] = (-11, [5]) ∧
    (device_write [] (bytes "remove 5") [5]).1 ≠ ((bytes "remove 5").length : Int) ∧
    is_hidden_proc (device_write [] (bytes "remove 5") [5]).2 5 = true := by
  decide

/-- C14, amended. A batch request whose mode tag is `del`, followed by a space-separated
sequence of 32-bit decimal integers, is accepted: `device_write` returns `len`, the registry
it leaves is the sort-and-scan pass of the entries that match none of the listed
identifiers, and no listed identifier is hidden afterwards. The request `"del 5"` on the
registry 5, 3, 5 leaves 3. -/
theorem device_write_del_unhides_listed (beyond : List Nat) (ids : List Int)
    (hidden_proc : List Int) (h : ∀ id ∈ ids, INT_MIN ≤ id ∧ id ≤ INT_MAX) :
    (device_write beyond (bytes "del " ++ join_tokens (ids.map format_d)) hidden_proc).1 =
      ((bytes "del " ++ join_tokens (ids.map format_d)).length : Int) ∧
    (device_write beyond (bytes "del " ++ join_tokens (ids.map format_d)) hidden_proc).2 =
      dedup_scan (list_sort list_cmp (hidden_proc.filter (fun x => decide (x ∉ ids)))) ∧
    (∀ id ∈ ids,
      is_hidden_proc
        (device_write beyond (bytes "del " ++ join_tokens (ids.map format_d)) hidden_proc).2 id
        = false) ∧
    (∀ x,
      is_hidden_proc
        (device_write beyond (bytes "del " ++ join_tokens (ids.map format_d)) hidden_proc).2 x
        = true ↔ x ∈ hidden_proc ∧ x ∉ ids) ∧
    device_write beyond (bytes "del 5") [5, 3, 5] = (5, [3]) := by
  have hreq : bytes "del " ++ join_tokens (ids.map format_d) =
      mode_tag INPUT_MODE._DEL ++ 32 :: join_tokens (ids.map format_d) := by
    have h1 : bytes "del " = [100, 101, 108, 32] := by decide
    simp [h1, mode_tag, bytes_del]
  have hmap : ids.map (mode_op INPUT_MODE._DEL) = ids.map registry_op.unhide := rfl
  have hrun : device_write beyond (bytes "del " ++ join_tokens (ids.map format_d))
      hidden_proc =
      (((bytes "del " ++ join_tokens (ids.map format_d)).length : Int),
        dedup_scan (list_sort list_cmp (hidden_proc.filter (fun x => decide (x ∉ ids))))) := by
    rw [hreq, device_write_batch_ids INPUT_MODE._DEL beyond ids hidden_proc h, hmap,
      run_ops_unhide]
  have hmem : ∀ x, is_hidden_proc
      (device_write beyond (bytes "del " ++ join_tokens (ids.map format_d)) hidden_proc).2 x
        = true ↔ x ∈ hidden_proc ∧ x ∉ ids := by
    intro x
    rw [hrun, is_hidden_proc_dedup_pass, is_hidden_proc_iff]
    simp
  refine ⟨by rw [hrun], by rw [hrun], ?_, hmem, ?_⟩
  · intro id hid
    cases hh : is_hidden_proc
      (device_write beyond (bytes "del " ++ join_tokens (ids.map format_d)) hidden_proc).2 id
    · rfl
    · exact absurd hid ((hmem id).mp hh).2
  · rw [device_write_beyond_irrelevant beyond [] _ _ (by decide)]
    decide

theorem device_write_del_unhides_listed_witness :
    (∀ id ∈ [5, 9], INT_MIN ≤ id ∧ id ≤ INT_MAX) ∧
    (device_write [] (bytes "del " ++ join_tokens ([5, 9].map format_d)) [9, 5, 3, 5]).2 =
      dedup_scan (list_sort list_cmp
        ([9, 5, 3, 5].filter (fun x => decide (x ∉ ([5, 9] : List Int))))) :=
  ⟨by decide,
    (device_write_del_unhides_listed [] [5, 9] [9, 5, 3, 5] (by decide)).2.1⟩

end Hideproc
